import Mathlib

/-!
Verification of the `laminar-devtools` web component (`src/laminar-devtools.ts`).

The component scans the live DOM for elements carrying the
`data-source-path` attribute, rebuilds their containment hierarchy as a
forest of `ComponentNode`s, renders that forest as an indented list of
lines, and lets the user select a node, which highlights the matching DOM
element with an inline outline.

Embedding choices:
* A DOM element tree is the inductive `Dom`; each element carries its tag
  name, its optional `data-source-path` attribute value, and the two inline
  style properties the component ever touches (`outline`, `outline-offset`).
* An element is identified by its path from the scan root (`document.body`)
  as a list of child indices: two live elements are reference-identical
  (`===`) exactly when their paths coincide, since the tree gives every
  element a unique position.
* The JS heap of `ComponentNode` objects is modelled as a flat store:
  `Forest.nodes` lists one `BNode` per collected element (in collection
  order) and object references become indices into that list; the `children`
  array of a node is its `childIdxs`.  Object identity across scans is
  modelled with an allocation counter: every scan stamps its nodes with
  fresh consecutive ids, mirroring the fresh `{...}` object literals
  `buildTree` creates on every call.
-/

/-- The data of one DOM element: `tagName`, the optional `data-source-path`
attribute (`none` = attribute absent), and the two inline style properties
the component manipulates. -/
structure ElemData where
  tag : String
  sourcePath : Option String
  outline : String
  outlineOffset : String
deriving Repr, DecidableEq

/-- A DOM element subtree: element data plus the ordered child elements. -/
inductive Dom : Type where
  | node (data : ElemData) (children : List Dom) : Dom

/-- The data stored at the root element of a subtree. -/
def Dom.data : Dom → ElemData
  | Dom.node d _ => d

/-- The child subtrees of the root element of a subtree. -/
def Dom.childList : Dom → List Dom
  | Dom.node _ cs => cs

mutual

/-- Document-order (preorder) collection of the paths of all elements of a
subtree that carry the `data-source-path` attribute; `pre` is the path of
the subtree's root element.  This is the elements-only tree walk of
`findElementsWithSourcePath`: the walker accepts an element iff
`element.hasAttribute('data-source-path')` and otherwise skips it while
still descending into its children. -/
def collectMarked (pre : List Nat) : Dom → List (List Nat)
  | Dom.node d cs =>
    (if d.sourcePath.isSome then [pre] else []) ++ collectMarkedFrom pre 0 cs

/-- Collection over a list of sibling subtrees whose first sibling has child
index `i` under the element at path `pre`. -/
def collectMarkedFrom (pre : List Nat) (i : Nat) : List Dom → List (List Nat)
  | [] => []
  | c :: cs => collectMarked (pre ++ [i]) c ++ collectMarkedFrom pre (i + 1) cs

end

/-- `findElementsWithSourcePath(document.body)`: all marked strict
descendants of the scan root in document order.  The `TreeWalker` never
yields its own root, so the root element itself is excluded even if it
carries the attribute. -/
def findElementsWithSourcePath : Dom → List (List Nat)
  | Dom.node _ cs => collectMarkedFrom [] 0 cs

/-- Subtree of the document rooted at the element with path `p`
(`none` when no element has that path). -/
def subtreeAt : Dom → List Nat → Option Dom
  | t, [] => some t
  | Dom.node _ cs, i :: p =>
    match cs[i]? with
    | some c => subtreeAt c p
    | none => none

/-- The `ElemData` of the element with path `p`. -/
def dataAt (d : Dom) (p : List Nat) : Option ElemData :=
  (subtreeAt d p).map Dom.data

/-- Inline `outline` of the element with path `p`. -/
def outlineAt (d : Dom) (p : List Nat) : Option String :=
  (dataAt d p).map ElemData.outline

/-- Inline `outline-offset` of the element with path `p`. -/
def outlineOffsetAt (d : Dom) (p : List Nat) : Option String :=
  (dataAt d p).map ElemData.outlineOffset

/-- One `ComponentNode` record of the heap.  `element` is the path of the
referenced DOM element; `childIdxs` is the `children` array with node
references rendered as indices into the node store. -/
structure BNode where
  element : List Nat
  sourcePath : String
  tagName : String
  childIdxs : List Nat
  depth : Nat
deriving Repr, DecidableEq

/-- The heap of `ComponentNode`s built by one `buildTree` call (`nodes`, in
collection order) together with the returned list of root references. -/
structure Forest where
  nodes : List BNode
  rootIdxs : List Nat
deriving Repr, DecidableEq

/-- The chain `element.parentElement, …` walked by `findParentNode` with
`fuel` bounding the number of steps: each step goes to the parent path
(`dropLast`) until the root path `[]` is reached. -/
def ancestorChainFuel : Nat → List Nat → List (List Nat)
  | 0, _ => []
  | _ + 1, [] => []
  | fuel + 1, a :: as =>
    (a :: as).dropLast :: ancestorChainFuel fuel ((a :: as).dropLast)

/-- The chain `element.parentElement, …` of ancestor paths walked by
`findParentNode`, nearest first; each step strictly shortens the path, so
`p.length` steps always reach the root.  The walk of the real code
continues past the scan root (`body`) to `html`; those extra ancestors can
never match a collected node, so the chain stops at the root path `[]`. -/
def ancestorChain (p : List Nat) : List (List Nat) :=
  ancestorChainFuel p.length p

/-- The loop body of `findParentNode`: for each ancestor in turn, the first
node of the store whose `element` is reference-identical to that ancestor
(`nodes.find(node => node.element === parent)`), as a store index. -/
def findParentSearch (nodes : List BNode) : List (List Nat) → Option Nat
  | [] => none
  | a :: rest =>
    match nodes.findIdx? (fun nd => nd.element == a) with
    | some j => some j
    | none => findParentSearch nodes rest

/-- `findParentNode(element, nodes)`: walk the ancestor chain upward and
return (a reference to) the first node of `nodes` whose element is an
ancestor, or `null`. -/
def findParentNode (element : List Nat) (nodes : List BNode) : Option Nat :=
  findParentSearch nodes (ancestorChain element)

/-- ASCII lowercasing of one character, as `toLowerCase()` acts on the
letters that can occur in a tag name. -/
def lowerChar (c : Char) : Char :=
  if 'A' ≤ c && c ≤ 'Z' then Char.ofNat (c.toNat + 32) else c

/-- `tagName.toLowerCase()`: lowercase every character. -/
def strToLower (s : String) : String :=
  ⟨s.data.map lowerChar⟩

/-- The first loop body of `buildTree`: the fresh `ComponentNode` literal
for one collected element (`getAttribute(…) || ''` yields `""` both for a
missing attribute and for an empty one; `tagName.toLowerCase()`). -/
def initNode (d : Dom) (e : List Nat) : BNode :=
  { element := e
    sourcePath := ((dataAt d e).bind ElemData.sourcePath).getD ""
    tagName := strToLower (((dataAt d e).map ElemData.tag).getD "")
    childIdxs := []
    depth := 0 }

/-- The second loop body of `buildTree`, for the node at store index `i`:
find its parent among all nodes; if found, push `i` onto the parent's
`children` and set this node's depth to `parent.depth + 1`, otherwise
append `i` to the root list.  The two inner matches cannot miss when `i`
and the parent index are in range; they make the function total. -/
def linkStep (acc : List BNode × List Nat) (i : Nat) : List BNode × List Nat :=
  match acc.1[i]? with
  | none => acc
  | some nd =>
    match findParentNode nd.element acc.1 with
    | some j =>
      let nodes1 :=
        match acc.1[j]? with
        | some pj => acc.1.set j { pj with childIdxs := pj.childIdxs ++ [i] }
        | none => acc.1
      let nodes2 :=
        match nodes1[j]?, nodes1[i]? with
        | some pj, some ni => nodes1.set i { ni with depth := pj.depth + 1 }
        | _, _ => nodes1
      (nodes2, acc.2)
    | none => (acc.1, acc.2 ++ [i])

/-- `buildTree(elements)`: create one node per element, then link
parent/child pairs processing the nodes in collection order. -/
def buildTree (d : Dom) (elements : List (List Nat)) : Forest :=
  let nodes0 := elements.map (initNode d)
  let res := (List.range elements.length).foldl linkStep (nodes0, [])
  { nodes := res.1, rootIdxs := res.2 }

/-- The pure part of `scanComponentTree`: collect the marked elements under
the scan root and build the forest. -/
def scanForest (body : Dom) : Forest :=
  buildTree body (findElementsWithSourcePath body)

/-- The `children` array of the node at store index `i`. -/
def childIdxsAt (nodes : List BNode) (i : Nat) : List Nat :=
  ((nodes[i]?).map BNode.childIdxs).getD []

/-- Fuelled preorder listing of the node references of a forest, starting
from the references `idxs`: each node followed by its `children` in order.
Fuel bounds the recursion depth; `forestFlatten` supplies enough fuel for
any forest whose child references point forward in the store. -/
def flattenIdxs (nodes : List BNode) : Nat → List Nat → List Nat
  | 0, _ => []
  | fuel + 1, idxs =>
    idxs.flatMap (fun i => i :: flattenIdxs nodes fuel (childIdxsAt nodes i))

/-- All node references of the forest, in rendering (preorder) order. -/
def forestFlatten (f : Forest) : List Nat :=
  flattenIdxs f.nodes f.nodes.length f.rootIdxs

/-- `'  '.repeat(n)`: `n` concatenated copies of `s`. -/
def strRepeat (s : String) (n : Nat) : String :=
  String.join (List.replicate n s)

/-- One rendered tree line: the indent text (`'  '.repeat(node.depth)`
inside the `tree-indent` span), the displayed tag name and source path, and
whether the line carries the `selected` class
(`this.selectedNode === node`). -/
structure RenderedLine where
  indent : String
  tagName : String
  sourcePath : String
  selected : Bool
deriving Repr, DecidableEq

/-- The line `renderTreeNode` emits for the node at store index `i`.
`sel` is the allocation id of the selected node (if any) and `ids` the
allocation ids of the store's nodes, so `sel == some (ids.getD i 0)` is the
reference identity test `this.selectedNode === node`. -/
def renderNodeLine (sel : Option Nat) (nodes : List BNode) (ids : List Nat)
    (i : Nat) : RenderedLine :=
  match nodes[i]? with
  | some nd =>
    { indent := strRepeat "  " nd.depth
      tagName := nd.tagName
      sourcePath := nd.sourcePath
      selected := sel == some (ids.getD i 0) }
  | none => { indent := "", tagName := "", sourcePath := "", selected := false }

/-- Fuelled recursion of `renderTreeNode` over node references: each node's
own line followed by the recursively rendered children, in order. -/
def renderTreeLines (sel : Option Nat) (nodes : List BNode) (ids : List Nat) :
    Nat → List Nat → List RenderedLine
  | 0, _ => []
  | fuel + 1, idxs =>
    idxs.flatMap (fun i =>
      renderNodeLine sel nodes ids i ::
        renderTreeLines sel nodes ids fuel (childIdxsAt nodes i))

/-- A scanned forest together with the allocation ids of its nodes
(`ids.getD k 0` is the identity of the object at store index `k`). -/
structure AForest where
  forest : Forest
  ids : List Nat
deriving Repr, DecidableEq

/-- The component's reactive state plus the shared document and the
allocation counter of the modelled heap: `componentTree` and `selectedNode`
are the two `@state()` fields; a held selected node keeps its record and
its allocation id. -/
structure PanelState where
  dom : Dom
  componentTree : AForest
  selectedNode : Option (BNode × Nat)
  nextId : Nat

/-- `scanComponentTree()`: rebuild the forest from the current document and
replace `componentTree` wholesale; the fresh nodes get fresh allocation
ids.  Nothing else is written. -/
def scanComponentTree (st : PanelState) : PanelState :=
  let f := scanForest st.dom
  { st with
    componentTree := { forest := f, ids := List.range' st.nextId f.nodes.length }
    nextId := st.nextId + f.nodes.length }

/-- The selector `[style*="outline"]` matches elements whose serialized
`style` attribute contains the substring `outline`.  With exactly the two
outline-related inline properties modelled — and both property names
containing `outline` — that holds iff at least one of them is non-empty. -/
def styleAttrMentionsOutline (e : ElemData) : Bool :=
  e.outline != "" || e.outlineOffset != ""

/-- The `forEach` body of `clearHighlights`: clear both inline properties
of a matched element. -/
def clearElemHighlight (e : ElemData) : ElemData :=
  if styleAttrMentionsOutline e then { e with outline := "", outlineOffset := "" } else e

mutual

/-- Apply `f` to the data of every element of the document. -/
def mapDom (f : ElemData → ElemData) : Dom → Dom
  | Dom.node d cs => Dom.node (f d) (mapDomList f cs)

/-- `mapDom` over a list of sibling subtrees. -/
def mapDomList (f : ElemData → ElemData) : List Dom → List Dom
  | [] => []
  | c :: cs => mapDom f c :: mapDomList f cs

end

/-- `clearHighlights()`: every element matched by
`document.querySelectorAll('[style*="outline"]')` gets both inline
properties cleared; all other elements are untouched.  (The match is
evaluated against the pre-call styles: the selector snapshot is taken
before the loop, and clearing one element never changes whether another
matches.) -/
def clearHighlights (d : Dom) : Dom :=
  mapDom clearElemHighlight d

/-- Replace a child subtree at index `i` (identity when out of range). -/
def updateChild (f : Dom → Dom) : Nat → List Dom → List Dom
  | _, [] => []
  | 0, c :: cs => f c :: cs
  | i + 1, c :: cs => c :: updateChild f i cs

/-- Apply `f` to the data of the single element with path `p` (identity
when no element has that path). -/
def updateAt (f : ElemData → ElemData) : List Nat → Dom → Dom
  | [], Dom.node d cs => Dom.node (f d) cs
  | i :: p, Dom.node d cs => Dom.node d (updateChild (fun c => updateAt f p c) i cs)

/-- `selectNode(node)`: set `selectedNode := node`, clear all current
highlights, then write the 2px outline and the 2px offset onto the
selected node's element. -/
def selectNode (st : PanelState) (nd : BNode) (id : Nat) : PanelState :=
  let cleared := clearHighlights st.dom
  let withOutline :=
    updateAt (fun e => { e with outline := "2px solid #007acc" }) nd.element cleared
  let withOffset :=
    updateAt (fun e => { e with outlineOffset := "2px" }) nd.element withOutline
  { st with selectedNode := some (nd, id), dom := withOffset }

/-- The rendered tree of a panel state: `renderTreeNode` applied to each
root of `componentTree` in order. -/
def renderTree (st : PanelState) : List RenderedLine :=
  renderTreeLines (st.selectedNode.map Prod.snd) st.componentTree.forest.nodes
    st.componentTree.ids st.componentTree.forest.nodes.length
    st.componentTree.forest.rootIdxs

/-- Replace the data of the root element of a subtree. -/
def Dom.withData (f : ElemData → ElemData) : Dom → Dom
  | Dom.node d cs => Dom.node (f d) cs

/-- Element-level counterpart of `findParentSearch`: the node store of
`buildTree` never changes the `element` fields, so the search is a function
of the collected element list alone.  Returns the index of the first
element equal to the first ancestor present in the list. -/
def elemSearch (elems : List (List Nat)) : List (List Nat) → Option Nat
  | [] => none
  | a :: rest =>
    match elems.findIdx? (fun e => e == a) with
    | some j => some j
    | none => elemSearch elems rest

/-- The store index of the tree parent `buildTree` assigns to the node at
store index `i` (`none` for a root), as a function of the element list. -/
def parentIdx (elems : List (List Nat)) (i : Nat) : Option Nat :=
  match elems[i]? with
  | some e => elemSearch elems (ancestorChain e)
  | none => none

/-- Length of the `parentIdx` chain starting at `i`.  The guard `j < i`
makes the recursion terminate on arbitrary inputs; for element lists in
document order the parent index is always smaller, so the guard never
cuts the chain. -/
def chainDepth (elems : List (List Nat)) (i : Nat) : Nat :=
  match parentIdx elems i with
  | some j => if _h : j < i then chainDepth elems j + 1 else 0
  | none => 0
termination_by i

/-- The `parentIdx` chain starting at (and including) `i`, with the same
guard as `chainDepth`. -/
def ancSelf (elems : List (List Nat)) (i : Nat) : List Nat :=
  match parentIdx elems i with
  | some j => if _h : j < i then i :: ancSelf elems j else [i]
  | none => [i]
termination_by i

/-- Document order lists every marked ancestor before its marked
descendants, so every parent reference of `buildTree` points to an earlier
store index. -/
def WellParented (elems : List (List Nat)) : Prop :=
  ∀ i j : Nat, parentIdx elems i = some j → j < i

/-- The value of the node at store index `i` after the linking loop of
`buildTree` has processed the first `m` nodes (`e` is the collected element
of the node). -/
def linkedNode (d : Dom) (elems : List (List Nat)) (m i : Nat) (e : List Nat) : BNode :=
  { initNode d e with
    childIdxs := (List.range m).filter (fun k => parentIdx elems k == some i)
    depth := if i < m then chainDepth elems i else 0 }

/-- Boolean test for `a` being a strict DOM ancestor of `b`, with elements
as paths: a strict ancestor is a proper path extension read the other way
around, i.e. `a` is a proper prefix of `b`. -/
def strictAncB (a b : List Nat) : Bool :=
  a.isPrefixOf b && a != b

/-- The number of marked elements that are strict DOM ancestors of the
element with path `p`. -/
def markedAncestorCount (d : Dom) (p : List Nat) : Nat :=
  (findElementsWithSourcePath d).countP (fun q => strictAncB q p)

/-- Demo document of the spec's scenario: body containing
`<div data-source-path="A">` containing `<span data-source-path="B">`
containing an unmarked `<i>` containing `<b data-source-path="C">`. -/
def demoDom : Dom :=
  Dom.node ⟨"BODY", none, "", ""⟩
    [Dom.node ⟨"DIV", some "A", "", ""⟩
      [Dom.node ⟨"SPAN", some "B", "", ""⟩
        [Dom.node ⟨"I", none, "", ""⟩
          [Dom.node ⟨"B", some "C", "", ""⟩ []]]]]

/-- A panel freshly attached to the demo document, before the first scan. -/
def demoPanel : PanelState :=
  { dom := demoDom
    componentTree := { forest := { nodes := [], rootIdxs := [] }, ids := [] }
    selectedNode := none
    nextId := 0 }

/-- A document with no marked element at all. -/
def unmarkedDom : Dom :=
  Dom.node ⟨"BODY", none, "", ""⟩ [Dom.node ⟨"DIV", none, "", ""⟩ []]

/-- A panel attached to the unmarked document. -/
def unmarkedPanel : PanelState :=
  { dom := unmarkedDom
    componentTree := { forest := { nodes := [], rootIdxs := [] }, ids := [] }
    selectedNode := none
    nextId := 0 }

theorem subtreeAt_nil (t : Dom) : subtreeAt t [] = some t := by
  cases t
  simp [subtreeAt]

theorem subtreeAt_cons (d : ElemData) (cs : List Dom) (i : Nat) (p : List Nat) :
    subtreeAt (Dom.node d cs) (i :: p) = (cs[i]?).bind (fun c => subtreeAt c p) := by
  cases h : cs[i]? <;> simp [subtreeAt, h]

theorem dataAt_node_nil (d : ElemData) (cs : List Dom) :
    dataAt (Dom.node d cs) [] = some d := by
  simp [dataAt, subtreeAt_nil, Dom.data]

theorem dataAt_node_cons (d : ElemData) (cs : List Dom) (i : Nat) (p : List Nat) :
    dataAt (Dom.node d cs) (i :: p) = (cs[i]?).bind (fun c => dataAt c p) := by
  cases h : cs[i]? <;> simp [dataAt, subtreeAt_cons, h]

theorem mapDomList_getElem (f : ElemData → ElemData) (cs : List Dom) (i : Nat) :
    (mapDomList f cs)[i]? = (cs[i]?).map (mapDom f) := by
  induction cs generalizing i with
  | nil => simp [mapDomList]
  | cons c cs ih =>
    cases i with
    | zero => simp [mapDomList]
    | succ i => simpa [mapDomList] using ih i

theorem dataAt_mapDom (f : ElemData → ElemData) (d : Dom) (p : List Nat) :
    dataAt (mapDom f d) p = (dataAt d p).map f := by
  induction p generalizing d with
  | nil =>
    cases d with
    | node dd cs => simp [mapDom, dataAt_node_nil]
  | cons i p ih =>
    cases d with
    | node dd cs =>
      rw [mapDom, dataAt_node_cons, dataAt_node_cons, mapDomList_getElem]
      cases cs[i]? with
      | none => rfl
      | some c => simpa using ih c

theorem updateChild_getElem (g : Dom → Dom) (i j : Nat) (cs : List Dom) :
    (updateChild g i cs)[j]? = if i = j then (cs[j]?).map g else cs[j]? := by
  induction cs generalizing i j with
  | nil => simp [updateChild]
  | cons c cs ih =>
    cases i with
    | zero => cases j <;> simp [updateChild]
    | succ i =>
      cases j with
      | zero => simp [updateChild]
      | succ j => simpa [updateChild, Nat.succ_inj] using ih i j

theorem dataAt_updateAt_self (f : ElemData → ElemData) (p : List Nat) (d : Dom) :
    dataAt (updateAt f p d) p = (dataAt d p).map f := by
  induction p generalizing d with
  | nil =>
    cases d with
    | node dd cs => simp [updateAt, dataAt_node_nil]
  | cons i p ih =>
    cases d with
    | node dd cs =>
      rw [updateAt, dataAt_node_cons, dataAt_node_cons, updateChild_getElem]
      simp only [if_pos rfl]
      cases cs[i]? with
      | none => rfl
      | some c => simpa using ih c

theorem dataAt_updateAt_other (f : ElemData → ElemData) (p q : List Nat) (d : Dom)
    (hne : q ≠ p) : dataAt (updateAt f p d) q = dataAt d q := by
  induction p generalizing q d with
  | nil =>
    cases d with
    | node dd cs =>
      cases q with
      | nil => exact absurd rfl hne
      | cons j q => rw [updateAt, dataAt_node_cons, dataAt_node_cons]
  | cons i p ih =>
    cases d with
    | node dd cs =>
      cases q with
      | nil => rw [updateAt, dataAt_node_nil, dataAt_node_nil]
      | cons j q =>
        rw [updateAt, dataAt_node_cons, dataAt_node_cons, updateChild_getElem]
        by_cases hij : i = j
        · subst hij
          simp only [if_pos rfl]
          cases cs[i]? with
          | none => rfl
          | some c =>
            have hq : q ≠ p := fun h => hne (by rw [h])
            simpa using ih q c hq
        · simp only [if_neg hij]

/-- C9: the scan operation (element collection plus tree construction)
performs no mutation of the DOM: after `scanComponentTree` the document is
the very same value, in particular every element's data is unchanged; the
scan is a pure read. -/
theorem claim_C9_scan_pure_read (st : PanelState) :
    (scanComponentTree st).dom = st.dom ∧
    ∀ p : List Nat, dataAt (scanComponentTree st).dom p = dataAt st.dom p :=
  ⟨rfl, fun _ => rfl⟩

/-- C10: a rescan modifies only the `componentTree` state field:
`selectedNode` still refers to the same old node object, and every
element's inline outline and outline-offset are left untouched. -/
theorem claim_C10_rescan_touches_only_tree (st : PanelState) :
    (scanComponentTree st).selectedNode = st.selectedNode ∧
    ∀ p : List Nat,
      outlineAt (scanComponentTree st).dom p = outlineAt st.dom p ∧
      outlineOffsetAt (scanComponentTree st).dom p = outlineOffsetAt st.dom p :=
  ⟨rfl, fun _ => ⟨rfl, rfl⟩⟩

/-- C4: scanning twice with no DOM change in between yields structurally
identical forests (same shape, tag names, source paths and depths — the
`Forest` values are equal), while no node object of the first scan is
reference-identical to one of the second: the allocation id sets are
disjoint. -/
theorem claim_C4_rescan_identical_but_fresh (st : PanelState) :
    (scanComponentTree (scanComponentTree st)).componentTree.forest
      = (scanComponentTree st).componentTree.forest ∧
    ∀ a ∈ (scanComponentTree st).componentTree.ids,
      ∀ b ∈ (scanComponentTree (scanComponentTree st)).componentTree.ids,
        a ≠ b := by
  refine ⟨rfl, ?_⟩
  intro a ha b hb
  simp only [scanComponentTree, List.mem_range'_1] at ha hb
  omega

/-- C8: a document with zero marked elements scans to an empty forest and
renders an empty tree; the (total) scan and render functions take no error
path on this input. -/
theorem claim_C8_zero_marked_is_normal (st : PanelState)
    (h : findElementsWithSourcePath st.dom = []) :
    (scanComponentTree st).componentTree.forest = { nodes := [], rootIdxs := [] } ∧
    renderTree (scanComponentTree st) = [] := by
  have hf : scanForest st.dom = { nodes := [], rootIdxs := [] } := by
    simp only [scanForest, h, buildTree]
    rfl
  constructor
  · simp only [scanComponentTree, hf]
  · simp only [renderTree, scanComponentTree, hf]
    rfl

/-- Witness for C8 at the concrete unmarked document. -/
theorem claim_C8_witness :
    findElementsWithSourcePath unmarkedPanel.dom = [] ∧
    ((scanComponentTree unmarkedPanel).componentTree.forest
        = { nodes := [], rootIdxs := [] } ∧
      renderTree (scanComponentTree unmarkedPanel) = []) :=
  ⟨rfl, claim_C8_zero_marked_is_normal unmarkedPanel rfl⟩

/-- C5: `selectNode` sets `selectedNode` to the given node, clears the
inline outline of exactly those document elements whose inline style has a
non-empty outline (elements with an empty outline keep it unchanged), and
then writes the 2px solid outline with matching 2px offset onto the node's
element. -/
theorem claim_C5_select_clears_then_highlights (st : PanelState) (nd : BNode)
    (id : Nat) (e : ElemData) (h : dataAt st.dom nd.element = some e) :
    (selectNode st nd id).selectedNode = some (nd, id) ∧
    outlineAt (selectNode st nd id).dom nd.element = some "2px solid #007acc" ∧
    outlineOffsetAt (selectNode st nd id).dom nd.element = some "2px" ∧
    (∀ p s, p ≠ nd.element → outlineAt st.dom p = some s → s ≠ "" →
      outlineAt (selectNode st nd id).dom p = some "") ∧
    (∀ p, p ≠ nd.element → outlineAt st.dom p = some "" →
      outlineAt (selectNode st nd id).dom p = outlineAt st.dom p) := by
  have hdom : (selectNode st nd id).dom =
      updateAt (fun e => { e with outlineOffset := "2px" }) nd.element
        (updateAt (fun e => { e with outline := "2px solid #007acc" }) nd.element
          (clearHighlights st.dom)) := rfl
  have hself : dataAt (selectNode st nd id).dom nd.element =
      some { clearElemHighlight e with
              outline := "2px solid #007acc", outlineOffset := "2px" } := by
    rw [hdom, dataAt_updateAt_self, dataAt_updateAt_self, clearHighlights,
      dataAt_mapDom, h]
    rfl
  have hother : ∀ p : List Nat, p ≠ nd.element →
      dataAt (selectNode st nd id).dom p = (dataAt st.dom p).map clearElemHighlight := by
    intro p hp
    rw [hdom, dataAt_updateAt_other _ _ _ _ hp, dataAt_updateAt_other _ _ _ _ hp,
      clearHighlights, dataAt_mapDom]
  refine ⟨rfl, ?_, ?_, ?_, ?_⟩
  · rw [outlineAt, hself]
    rfl
  · rw [outlineOffsetAt, hself]
    rfl
  · intro p s hp hs hne
    rw [outlineAt, hother p hp]
    rw [outlineAt] at hs
    rcases Option.map_eq_some'.mp hs with ⟨ed, hed, hout⟩
    have hment : styleAttrMentionsOutline ed = true := by
      simp only [styleAttrMentionsOutline, Bool.or_eq_true, bne_iff_ne]
      exact Or.inl (by rw [hout]; exact hne)
    simp [hed, clearElemHighlight, hment]
  · intro p hp hs
    rw [outlineAt, hother p hp, outlineAt] at *
    rcases Option.map_eq_some'.mp hs with ⟨ed, hed, hout⟩
    simp only [hed, Option.map_some']
    by_cases hm : styleAttrMentionsOutline ed = true
    · simp [clearElemHighlight, hm, hout]
    · simp [clearElemHighlight, hm]

/-- Witness for C5: selecting the root node of the scanned demo panel. -/
theorem claim_C5_witness :
    dataAt (scanComponentTree demoPanel).dom [0] = some ⟨"DIV", some "A", "", ""⟩ ∧
    ((selectNode (scanComponentTree demoPanel) ⟨[0], "A", "div", [1], 0⟩ 0).selectedNode
        = some (⟨[0], "A", "div", [1], 0⟩, 0) ∧
      outlineAt (selectNode (scanComponentTree demoPanel) ⟨[0], "A", "div", [1], 0⟩ 0).dom
          [0] = some "2px solid #007acc" ∧
      outlineOffsetAt
          (selectNode (scanComponentTree demoPanel) ⟨[0], "A", "div", [1], 0⟩ 0).dom
          [0] = some "2px" ∧
      (∀ p s, p ≠ [0] →
        outlineAt (scanComponentTree demoPanel).dom p = some s → s ≠ "" →
        outlineAt (selectNode (scanComponentTree demoPanel) ⟨[0], "A", "div", [1], 0⟩ 0).dom
          p = some "") ∧
      (∀ p, p ≠ [0] →
        outlineAt (scanComponentTree demoPanel).dom p = some "" →
        outlineAt (selectNode (scanComponentTree demoPanel) ⟨[0], "A", "div", [1], 0⟩ 0).dom
            p = outlineAt (scanComponentTree demoPanel).dom p)) :=
  ⟨rfl, claim_C5_select_clears_then_highlights (scanComponentTree demoPanel)
    ⟨[0], "A", "div", [1], 0⟩ 0 ⟨"DIV", some "A", "", ""⟩ rfl⟩

mutual

/-- Every path collected inside a subtree extends the path of the
subtree's root. -/
theorem collectMarked_pre (pre q : List Nat) (t : Dom)
    (hq : q ∈ collectMarked pre t) : pre <+: q := by
  cases t with
  | node d cs =>
    rw [collectMarked] at hq
    rcases List.mem_append.mp hq with h1 | h2
    · have hqp : q = pre := by
        by_cases hs : d.sourcePath.isSome <;> simp [hs] at h1
        exact h1
      rw [hqp]
    · rcases collectMarkedFrom_pre pre 0 q cs h2 with ⟨k, _, hk⟩
      exact (List.prefix_append pre [k]).trans hk

/-- Every path collected from the sibling list starting at child index `i`
extends `pre ++ [k]` for some `k ≥ i`. -/
theorem collectMarkedFrom_pre (pre : List Nat) (i : Nat) (q : List Nat)
    (cs : List Dom) (hq : q ∈ collectMarkedFrom pre i cs) :
    ∃ k, i ≤ k ∧ pre ++ [k] <+: q := by
  cases cs with
  | nil => rw [collectMarkedFrom] at hq; cases hq
  | cons c cs =>
    rw [collectMarkedFrom] at hq
    rcases List.mem_append.mp hq with h1 | h2
    · exact ⟨i, Nat.le_refl i, collectMarked_pre (pre ++ [i]) q c h1⟩
    · rcases collectMarkedFrom_pre pre (i + 1) q cs h2 with ⟨k, hk1, hk2⟩
      exact ⟨k, by omega, hk2⟩

end

mutual

/-- Document order never lists a path after one of its extensions: for any
earlier path `x` and later path `y` of the collection, `y` is not a prefix
of `x`. -/
theorem collectMarked_pairwise (pre : List Nat) (t : Dom) :
    List.Pairwise (fun x y : List Nat => ¬ y <+: x) (collectMarked pre t) := by
  cases t with
  | node d cs =>
    rw [collectMarked]
    refine List.pairwise_append.mpr
      ⟨?_, collectMarkedFrom_pairwise pre 0 cs, ?_⟩
    · by_cases hs : d.sourcePath.isSome <;> simp [hs]
    · intro x hx y hy
      have hxpre : x = pre := by
        by_cases hs : d.sourcePath.isSome <;> simp [hs] at hx
        exact hx
      rcases collectMarkedFrom_pre pre 0 y cs hy with ⟨k, _, hk⟩
      intro hyx
      have h1 : (pre ++ [k]).length ≤ y.length := hk.length_le
      have h2 : y.length ≤ x.length := hyx.length_le
      rw [hxpre] at h2
      simp only [List.length_append, List.length_cons, List.length_nil] at h1
      omega

/-- `collectMarked_pairwise` for the sibling collection. -/
theorem collectMarkedFrom_pairwise (pre : List Nat) (i : Nat) (cs : List Dom) :
    List.Pairwise (fun x y : List Nat => ¬ y <+: x) (collectMarkedFrom pre i cs) := by
  cases cs with
  | nil => rw [collectMarkedFrom]; exact List.Pairwise.nil
  | cons c cs =>
    rw [collectMarkedFrom]
    refine List.pairwise_append.mpr
      ⟨collectMarked_pairwise (pre ++ [i]) c,
        collectMarkedFrom_pairwise pre (i + 1) cs, ?_⟩
    intro x hx y hy hyx
    have hx' : pre ++ [i] <+: x := collectMarked_pre (pre ++ [i]) x c hx
    rcases collectMarkedFrom_pre pre (i + 1) y cs hy with ⟨k, hk1, hk2⟩
    have hky : pre ++ [k] <+: x := hk2.trans hyx
    have hik : pre ++ [i] <+: pre ++ [k] :=
      List.prefix_of_prefix_length_le hx' hky (by simp)
    have heq : pre ++ [i] = pre ++ [k] := hik.eq_of_length (by simp)
    have : i = k := by
      have := List.append_cancel_left heq
      simpa using this
    omega

end

/-- In document order no later element is an ancestor (path prefix) of an
earlier one. -/
theorem findElements_pairwise (d : Dom) :
    List.Pairwise (fun x y : List Nat => ¬ y <+: x)
      (findElementsWithSourcePath d) := by
  cases d with
  | node dd cs =>
    rw [findElementsWithSourcePath]
    exact collectMarkedFrom_pairwise [] 0 cs

/-- Collected elements are strict descendants of the scan root: their paths
are nonempty. -/
theorem findElements_ne_nil (d : Dom) (q : List Nat)
    (hq : q ∈ findElementsWithSourcePath d) : q ≠ [] := by
  cases d with
  | node dd cs =>
    rw [findElementsWithSourcePath] at hq
    rcases collectMarkedFrom_pre [] 0 q cs hq with ⟨k, _, hk⟩
    intro hnil
    rw [hnil] at hk
    exact absurd hk.length_le (by simp)

/-- The collected element list has no duplicate element references. -/
theorem findElements_nodup (d : Dom) : (findElementsWithSourcePath d).Nodup := by
  refine (findElements_pairwise d).imp ?_
  intro x y hxy heq
  exact hxy (heq ▸ List.prefix_rfl)

/-- In document order every marked strict ancestor of an element appears at
an earlier index of the collected list. -/
theorem findElements_anc_lt (d : Dom) {a b : List Nat} {ia ib : Nat}
    (ha : (findElementsWithSourcePath d)[ia]? = some a)
    (hb : (findElementsWithSourcePath d)[ib]? = some b)
    (hpre : a <+: b) (hne : a ≠ b) : ia < ib := by
  rcases List.getElem?_eq_some.mp ha with ⟨hia, hga⟩
  rcases List.getElem?_eq_some.mp hb with ⟨hib, hgb⟩
  rcases Nat.lt_trichotomy ia ib with h | h | h
  · exact h
  · exact absurd (hga.symm.trans (h ▸ hgb)) hne
  · have := (List.pairwise_iff_getElem.mp (findElements_pairwise d)) ib ia hib hia h
    rw [hga, hgb] at this
    exact absurd hpre this

/-- One step of the ancestor walk: for a non-root element the chain is the
parent path followed by the parent's own chain. -/
theorem ancestorChain_cons (a : Nat) (as : List Nat) :
    ancestorChain (a :: as)
      = (a :: as).dropLast :: ancestorChain ((a :: as).dropLast) := by
  have hlen : ((a :: as).dropLast).length = as.length := by
    simp [List.length_dropLast]
  rw [ancestorChain, List.length_cons, ancestorChainFuel, ancestorChain, hlen]

theorem ancestorChain_nil : ancestorChain [] = [] := rfl

/-- The parent path is a prefix of the path. -/
theorem dropLast_pre (p : List Nat) (h : p ≠ []) : p.dropLast <+: p :=
  ⟨[p.getLast h], List.dropLast_append_getLast h⟩

/-- The ancestor chain of `p` lists exactly the proper prefixes of `p`
(the ancestors of the element as paths). -/
theorem mem_ancestorChain (p a : List Nat) :
    a ∈ ancestorChain p ↔ (a <+: p ∧ a ≠ p) := by
  generalize hgen : p.length = n
  induction n generalizing p a with
  | zero =>
    have hp : p = [] := List.length_eq_zero.mp hgen
    subst hp
    rw [ancestorChain_nil]
    constructor
    · intro h; cases h
    · rintro ⟨hpre, hne⟩
      exact absurd (List.prefix_nil.mp hpre) hne
  | succ n ih =>
    cases p with
    | nil => simp at hgen
    | cons x xs =>
      have hne : (x :: xs) ≠ [] := by simp
      have hdl : ((x :: xs).dropLast).length = n := by
        simp [List.length_dropLast]
        simpa using hgen
      have hdlpre : (x :: xs).dropLast <+: (x :: xs) := dropLast_pre _ hne
      have hdlne : (x :: xs).dropLast ≠ (x :: xs) := by
        intro h
        have := congrArg List.length h
        rw [hdl] at this
        omega
      rw [ancestorChain_cons, List.mem_cons, ih _ a hdl]
      constructor
      · rintro (h | ⟨h1, h2⟩)
        · exact ⟨h ▸ hdlpre, h ▸ hdlne⟩
        · refine ⟨h1.trans hdlpre, ?_⟩
          intro hap
          have hlen1 : a.length ≤ ((x :: xs).dropLast).length := h1.length_le
          rw [hap] at hlen1
          simp only [List.length_dropLast, List.length_cons] at hlen1
          omega
      · rintro ⟨h1, h2⟩
        have hlena : a.length < (x :: xs).length := by
          rcases Nat.lt_or_ge a.length (x :: xs).length with h | h
          · exact h
          · exact absurd (h1.eq_of_length_le h) h2
        have hled : a.length ≤ ((x :: xs).dropLast).length := by
          rw [hdl]; rw [hgen] at hlena; omega
        have hadl : a <+: (x :: xs).dropLast :=
          List.prefix_of_prefix_length_le h1 hdlpre hled
        by_cases heq : a = (x :: xs).dropLast
        · exact Or.inl heq
        · exact Or.inr ⟨hadl, heq⟩

/-- The ancestor chain is ordered nearest-first: path lengths strictly
decrease along it. -/
theorem ancestorChain_length_sorted (p : List Nat) :
    List.Pairwise (fun x y : List Nat => y.length < x.length)
      (ancestorChain p) := by
  generalize hgen : p.length = n
  induction n generalizing p with
  | zero =>
    have hp : p = [] := List.length_eq_zero.mp hgen
    subst hp
    rw [ancestorChain_nil]
    exact List.Pairwise.nil
  | succ n ih =>
    cases p with
    | nil => simp at hgen
    | cons x xs =>
      have hdl : ((x :: xs).dropLast).length = n := by
        simp [List.length_dropLast]
        simpa using hgen
      rw [ancestorChain_cons]
      refine List.Pairwise.cons ?_ (ih _ hdl)
      intro y hy
      rcases (mem_ancestorChain _ y).mp hy with ⟨h1, h2⟩
      rcases Nat.lt_or_ge y.length ((x :: xs).dropLast).length with h | h
      · exact h
      · exact absurd (h1.eq_of_length_le h) h2

/-- A failed search means no walked ancestor occurs in the element list. -/
theorem elemSearch_eq_none (elems l : List (List Nat))
    (h : elemSearch elems l = none) : ∀ a ∈ l, a ∉ elems := by
  induction l with
  | nil => intro a ha; cases ha
  | cons b rest ih =>
    rw [elemSearch] at h
    cases hf : elems.findIdx? (fun e => e == b) with
    | some j0 => rw [hf] at h; cases h
    | none =>
      rw [hf] at h
      intro a ha
      rcases List.mem_cons.mp ha with rfl | ha'
      · intro hmem
        have := List.findIdx?_eq_none_iff.mp hf a hmem
        simp at this
      · exact ih h a ha'

/-- A successful `findIdx?` on the element list yields an in-range index
holding the searched element. -/
theorem findIdx_elem_spec (elems : List (List Nat)) (a : List Nat) (j : Nat)
    (h : elems.findIdx? (fun e => e == a) = some j) :
    j < elems.length ∧ elems[j]? = some a := by
  rcases List.findIdx?_eq_some_iff_getElem.mp h with ⟨hj, hpj, _⟩
  refine ⟨hj, ?_⟩
  rw [List.getElem?_eq_some]
  exact ⟨hj, by simpa using hpj⟩

/-- A successful search over a nearest-first chain finds a chain entry
present in the element list that is at least as long as every other chain
entry present in the list (the search stops at the first, i.e. longest,
hit). -/
theorem elemSearch_some_spec (elems l : List (List Nat)) (j : Nat)
    (hsorted : List.Pairwise (fun x y : List Nat => y.length < x.length) l)
    (h : elemSearch elems l = some j) :
    ∃ a ∈ l, elems.findIdx? (fun e => e == a) = some j ∧
      ∀ b ∈ l, b ∈ elems → b.length ≤ a.length := by
  induction l with
  | nil => rw [elemSearch] at h; cases h
  | cons c rest ih =>
    rw [elemSearch] at h
    cases hf : elems.findIdx? (fun e => e == c) with
    | some j0 =>
      rw [hf] at h
      injection h with hj
      subst hj
      refine ⟨c, List.mem_cons_self c rest, hf, ?_⟩
      intro b hb _
      rcases List.mem_cons.mp hb with rfl | hb'
      · exact Nat.le_refl _
      · exact Nat.le_of_lt ((List.pairwise_cons.mp hsorted).1 b hb')
    | none =>
      rw [hf] at h
      rcases ih (List.pairwise_cons.mp hsorted).2 h with ⟨a, ha, hfa, hmax⟩
      refine ⟨a, List.mem_cons_of_mem c ha, hfa, ?_⟩
      intro b hb hbel
      rcases List.mem_cons.mp hb with rfl | hb'
      · have := List.findIdx?_eq_none_iff.mp hf b hbel
        simp at this
      · exact hmax b hb' hbel

/-- A successful search yields an index into the element list. -/
theorem elemSearch_some_lt (elems l : List (List Nat)) (j : Nat)
    (h : elemSearch elems l = some j) : j < elems.length := by
  induction l with
  | nil => rw [elemSearch] at h; cases h
  | cons c rest ih =>
    rw [elemSearch] at h
    cases hf : elems.findIdx? (fun e => e == c) with
    | some j0 =>
      rw [hf] at h
      injection h with hj
      subst hj
      exact (findIdx_elem_spec elems c j0 hf).1
    | none =>
      rw [hf] at h
      exact ih h

/-- A parent reference is an index into the element list. -/
theorem parentIdx_lt_length (elems : List (List Nat)) (i j : Nat)
    (h : parentIdx elems i = some j) : j < elems.length := by
  cases he : elems[i]? with
  | none => rw [parentIdx, he] at h; cases h
  | some e =>
    rw [parentIdx, he] at h
    exact elemSearch_some_lt elems _ j h

/-- Characterisation of a found parent: it refers to a marked strict
ancestor of the element, and no marked strict ancestor is longer (i.e. it
is the nearest one). -/
theorem parentIdx_some_spec (elems : List (List Nat)) (i j : Nat)
    (e : List Nat) (he : elems[i]? = some e)
    (h : parentIdx elems i = some j) :
    ∃ a, j < elems.length ∧ elems[j]? = some a ∧ (a <+: e ∧ a ≠ e) ∧
      ∀ b ∈ elems, b <+: e → b ≠ e → b.length ≤ a.length := by
  rw [parentIdx, he] at h
  rcases elemSearch_some_spec elems (ancestorChain e) j
      (ancestorChain_length_sorted e) h with ⟨a, ha, hfa, hmax⟩
  rcases findIdx_elem_spec elems a j hfa with ⟨hj, hje⟩
  rcases (mem_ancestorChain e a).mp ha with ⟨hpre, hne⟩
  refine ⟨a, hj, hje, ⟨hpre, hne⟩, ?_⟩
  intro b hb hbpre hbne
  exact hmax b ((mem_ancestorChain e b).mpr ⟨hbpre, hbne⟩) hb

/-- Characterisation of a missing parent: no marked element is a strict
ancestor. -/
theorem parentIdx_none_spec (elems : List (List Nat)) (i : Nat) (e : List Nat)
    (he : elems[i]? = some e) (h : parentIdx elems i = none) :
    ∀ b ∈ elems, ¬(b <+: e ∧ b ≠ e) := by
  rw [parentIdx, he] at h
  rintro b hb ⟨h1, h2⟩
  exact elemSearch_eq_none elems _ h b ((mem_ancestorChain e b).mpr ⟨h1, h2⟩) hb

/-- Document order makes every parent reference point to an earlier index:
the collected element lists of real documents are well-parented. -/
theorem findElements_wellParented (d : Dom) :
    WellParented (findElementsWithSourcePath d) := by
  intro i j h
  cases he : (findElementsWithSourcePath d)[i]? with
  | none => rw [parentIdx, he] at h; cases h
  | some e =>
    rcases parentIdx_some_spec _ i j e he h with ⟨a, _, hje, ⟨hpre, hne⟩, _⟩
    exact findElements_anc_lt d hje he hpre hne

theorem ancSelf_none (elems : List (List Nat)) (i : Nat)
    (h : parentIdx elems i = none) : ancSelf elems i = [i] := by
  rw [ancSelf, h]

theorem ancSelf_some_lt (elems : List (List Nat)) (i j : Nat)
    (h : parentIdx elems i = some j) (hj : j < i) :
    ancSelf elems i = i :: ancSelf elems j := by
  rw [ancSelf, h]
  simp [hj]

theorem ancSelf_some_not_lt (elems : List (List Nat)) (i j : Nat)
    (h : parentIdx elems i = some j) (hj : ¬ j < i) :
    ancSelf elems i = [i] := by
  rw [ancSelf, h]
  simp [hj]

theorem mem_ancSelf_self (elems : List (List Nat)) (i : Nat) :
    i ∈ ancSelf elems i := by
  rw [ancSelf]
  split
  · split <;> simp
  · simp

theorem mem_ancSelf_le (elems : List (List Nat)) :
    ∀ i m, m ∈ ancSelf elems i → m ≤ i := by
  intro i
  induction i using Nat.strong_induction_on with
  | _ i ih =>
    intro m hm
    cases hp : parentIdx elems i with
    | none =>
      rw [ancSelf_none elems i hp] at hm
      simp at hm
      omega
    | some j =>
      by_cases hj : j < i
      · rw [ancSelf_some_lt elems i j hp hj] at hm
        rcases List.mem_cons.mp hm with rfl | hm'
        · exact Nat.le_refl m
        · exact Nat.le_of_lt (Nat.lt_of_le_of_lt (ih j hj m hm') hj)
      · rw [ancSelf_some_not_lt elems i j hp hj] at hm
        simp at hm
        omega

theorem ancSelf_suffix (elems : List (List Nat)) :
    ∀ i c, c ∈ ancSelf elems i → ancSelf elems c <:+ ancSelf elems i := by
  intro i
  induction i using Nat.strong_induction_on with
  | _ i ih =>
    intro c hc
    cases hp : parentIdx elems i with
    | none =>
      rw [ancSelf_none elems i hp] at hc ⊢
      simp at hc
      rw [hc, ancSelf_none elems i hp]
    | some j =>
      by_cases hj : j < i
      · rw [ancSelf_some_lt elems i j hp hj] at hc ⊢
        rcases List.mem_cons.mp hc with rfl | hc'
        · rw [← ancSelf_some_lt elems c j hp hj]
        · exact (ih j hj c hc').trans (List.suffix_cons i _)
      · rw [ancSelf_some_not_lt elems i j hp hj] at hc ⊢
        simp at hc
        rw [hc, ancSelf_some_not_lt elems i j hp hj]

theorem mem_ancSelf_trans (elems : List (List Nat)) (i c b : Nat)
    (hb : b ∈ ancSelf elems c) (hc : c ∈ ancSelf elems i) :
    b ∈ ancSelf elems i :=
  (ancSelf_suffix elems i c hc).subset hb

theorem ancSelf_linear (elems : List (List Nat)) :
    ∀ i c1 c2, c1 ∈ ancSelf elems i → c2 ∈ ancSelf elems i →
      c1 ∈ ancSelf elems c2 ∨ c2 ∈ ancSelf elems c1 := by
  intro i
  induction i using Nat.strong_induction_on with
  | _ i ih =>
    intro c1 c2 h1 h2
    cases hp : parentIdx elems i with
    | none =>
      rw [ancSelf_none elems i hp] at h1 h2
      simp at h1 h2
      rw [h1, h2]
      exact Or.inl (mem_ancSelf_self elems i)
    | some j =>
      by_cases hj : j < i
      · rw [ancSelf_some_lt elems i j hp hj] at h1 h2
        rcases List.mem_cons.mp h1 with rfl | h1'
        · right
          rw [ancSelf_some_lt elems c1 j hp hj]
          exact h2
        · rcases List.mem_cons.mp h2 with rfl | h2'
          · left
            rw [ancSelf_some_lt elems c2 j hp hj]
            exact List.mem_cons_of_mem _ h1'
          · exact ih j hj c1 c2 h1' h2'
      · rw [ancSelf_some_not_lt elems i j hp hj] at h1 h2
        simp at h1 h2
        rw [h1, h2]
        exact Or.inl (mem_ancSelf_self elems i)

theorem ancSelf_pred_unique_aux (elems : List (List Nat))
    (hwp : WellParented elems) (x c1 c2 : Nat)
    (h1 : parentIdx elems c1 = some x) (h2 : parentIdx elems c2 = some x)
    (h12 : c1 ∈ ancSelf elems c2) : c1 = c2 := by
  have hx2 : x < c2 := hwp c2 x h2
  rw [ancSelf_some_lt elems c2 x h2 hx2] at h12
  rcases List.mem_cons.mp h12 with rfl | h12'
  · rfl
  · have : c1 ≤ x := mem_ancSelf_le elems x c1 h12'
    have : x < c1 := hwp c1 x h1
    omega

theorem ancSelf_pred_unique (elems : List (List Nat))
    (hwp : WellParented elems) (k x c1 c2 : Nat)
    (hc1 : c1 ∈ ancSelf elems k) (hc2 : c2 ∈ ancSelf elems k)
    (h1 : parentIdx elems c1 = some x) (h2 : parentIdx elems c2 = some x) :
    c1 = c2 := by
  rcases ancSelf_linear elems k c1 c2 hc1 hc2 with h | h
  · exact ancSelf_pred_unique_aux elems hwp x c1 c2 h1 h2 h
  · exact (ancSelf_pred_unique_aux elems hwp x c2 c1 h2 h1 h).symm

theorem ancSelf_root_exists (elems : List (List Nat))
    (hwp : WellParented elems) :
    ∀ i, ∃ r, r ∈ ancSelf elems i ∧ parentIdx elems r = none := by
  intro i
  induction i using Nat.strong_induction_on with
  | _ i ih =>
    cases hp : parentIdx elems i with
    | none => exact ⟨i, mem_ancSelf_self elems i, hp⟩
    | some j =>
      have hj : j < i := hwp i j hp
      rcases ih j hj with ⟨r, hr1, hr2⟩
      refine ⟨r, ?_, hr2⟩
      rw [ancSelf_some_lt elems i j hp hj]
      exact List.mem_cons_of_mem _ hr1

theorem ancSelf_root_unique (elems : List (List Nat)) (k r1 r2 : Nat)
    (hr1 : r1 ∈ ancSelf elems k) (hr2 : r2 ∈ ancSelf elems k)
    (h1 : parentIdx elems r1 = none) (h2 : parentIdx elems r2 = none) :
    r1 = r2 := by
  rcases ancSelf_linear elems k r1 r2 hr1 hr2 with h | h
  · rw [ancSelf_none elems r2 h2] at h
    simpa using h
  · rw [ancSelf_none elems r1 h1] at h
    simp at h
    exact h.symm

theorem mem_ancSelf_step (elems : List (List Nat))
    (hwp : WellParented elems) :
    ∀ k x, x ∈ ancSelf elems k → x ≠ k →
      ∃ c, parentIdx elems c = some x ∧ c ∈ ancSelf elems k := by
  intro k
  induction k using Nat.strong_induction_on with
  | _ k ih =>
    intro x hx hne
    cases hp : parentIdx elems k with
    | none =>
      rw [ancSelf_none elems k hp] at hx
      simp at hx
      exact absurd hx hne
    | some j =>
      have hj : j < k := hwp k j hp
      rw [ancSelf_some_lt elems k j hp hj] at hx
      rcases List.mem_cons.mp hx with rfl | hx'
      · exact absurd rfl hne
      · by_cases hxj : x = j
        · subst hxj
          exact ⟨k, hp, mem_ancSelf_self elems k⟩
        · rcases ih j hj x hx' hxj with ⟨c, hc1, hc2⟩
          refine ⟨c, hc1, ?_⟩
          rw [ancSelf_some_lt elems k j hp hj]
          exact List.mem_cons_of_mem _ hc2

theorem pred_mem_ancSelf (elems : List (List Nat)) (hwp : WellParented elems)
    (k x c : Nat) (hc : parentIdx elems c = some x)
    (hck : c ∈ ancSelf elems k) : x ∈ ancSelf elems k := by
  have hx : x < c := hwp c x hc
  have hxc : x ∈ ancSelf elems c := by
    rw [ancSelf_some_lt elems c x hc hx]
    exact List.mem_cons_of_mem _ (mem_ancSelf_self elems x)
  exact mem_ancSelf_trans elems k c x hxc hck

theorem linkedNode_element (d : Dom) (elems : List (List Nat)) (m i : Nat)
    (e : List Nat) : (linkedNode d elems m i e).element = e := rfl

theorem linkedNode_zero (d : Dom) (elems : List (List Nat)) (i : Nat)
    (e : List Nat) : linkedNode d elems 0 i e = initNode d e := by
  simp [linkedNode, initNode]

theorem chainDepth_none (elems : List (List Nat)) (i : Nat)
    (h : parentIdx elems i = none) : chainDepth elems i = 0 := by
  rw [chainDepth, h]

theorem chainDepth_some (elems : List (List Nat)) (i j : Nat)
    (h : parentIdx elems i = some j) (hj : j < i) :
    chainDepth elems i = chainDepth elems j + 1 := by
  rw [chainDepth, h]
  simp [hj]

/-- The node store search of `findParentNode` only reads the (constant)
`element` fields, so it agrees with the element-level search. -/
theorem findParentSearch_eq_elemSearch (nodes : List BNode)
    (elems : List (List Nat)) (hmap : nodes.map BNode.element = elems) :
    ∀ l, findParentSearch nodes l = elemSearch elems l := by
  intro l
  induction l with
  | nil => rw [findParentSearch, elemSearch]
  | cons a rest ih =>
    rw [findParentSearch, elemSearch]
    have hidx : elems.findIdx? (fun e => e == a)
        = nodes.findIdx? (fun nd => nd.element == a) := by
      rw [← hmap, List.findIdx?_map]
      rfl
    rw [hidx]
    cases nodes.findIdx? (fun nd => nd.element == a) with
    | some j => rfl
    | none => exact ih

/-- A store whose entries are pointwise images of the element list with
element-preserving maps projects back onto the element list. -/
theorem map_element_of_pointwise (nodes : List BNode)
    (elems : List (List Nat)) (f : Nat → List Nat → BNode)
    (hpt : ∀ i : Nat, nodes[i]? = (elems[i]?).map (f i))
    (hel : ∀ i e, (f i e).element = e) :
    nodes.map BNode.element = elems := by
  apply List.ext_getElem?
  intro n
  rw [List.getElem?_map, hpt n]
  cases elems[n]? with
  | none => rfl
  | some e => simp [hel]

/-- No node processed up to step `M ≤ i + 1` can have the node at index `i`
as its parent: parent references point strictly downwards. -/
theorem filter_parent_above (elems : List (List Nat))
    (hwp : WellParented elems) (M i : Nat) (hM : M ≤ i + 1) :
    (List.range M).filter (fun k => parentIdx elems k == some i) = [] := by
  rw [List.filter_eq_nil_iff]
  intro k hk
  rw [List.mem_range] at hk
  simp only [beq_iff_eq]
  intro hpk
  have := hwp k i hpk
  omega

theorem linkedNode_fields (d : Dom) (elems : List (List Nat)) (m i : Nat)
    (e : List Nat) :
    linkedNode d elems m i e
      = BNode.mk e (((dataAt d e).bind ElemData.sourcePath).getD "")
          (strToLower (((dataAt d e).map ElemData.tag).getD ""))
          ((List.range m).filter (fun k => parentIdx elems k == some i))
          (if i < m then chainDepth elems i else 0) := rfl

/-- Processing step `m` leaves the node at index `i` unchanged when `i` is
neither the parent found at step `m` nor the processed node itself (the
`i = m` case is allowed when its depth write is the value already held). -/
theorem linkedNode_succ_eq (d : Dom) (elems : List (List Nat)) (m i : Nat)
    (e : List Nat) (hne : parentIdx elems m ≠ some i)
    (hdm : i = m → chainDepth elems i = 0) :
    linkedNode d elems (m + 1) i e = linkedNode d elems m i e := by
  rw [linkedNode_fields, linkedNode_fields]
  have hch : (List.range (m + 1)).filter (fun k => parentIdx elems k == some i)
      = (List.range m).filter (fun k => parentIdx elems k == some i) := by
    rw [List.range_succ, List.filter_append]
    have : (parentIdx elems m == some i) = false := by
      simp only [beq_eq_false_iff_ne, ne_eq]
      exact hne
    simp [List.filter_cons, this]
  have hdep : (if i < m + 1 then chainDepth elems i else 0)
      = (if i < m then chainDepth elems i else 0) := by
    by_cases him : i = m
    · subst him
      simp [hdm rfl]
    · by_cases hlt : i < m
      · simp [hlt, Nat.lt_succ_of_lt hlt]
      · have : ¬ i < m + 1 := by omega
        simp [hlt, this]
  rw [hch, hdep]

/-- Processing step `m` updates the found parent `j` by appending `m` to
its children. -/
theorem linkedNode_succ_parent (d : Dom) (elems : List (List Nat)) (m j : Nat)
    (ej : List Nat) (hp : parentIdx elems m = some j) (hjm : j < m) :
    { linkedNode d elems m j ej with
        childIdxs := (linkedNode d elems m j ej).childIdxs ++ [m] }
      = linkedNode d elems (m + 1) j ej := by
  rw [linkedNode_fields, linkedNode_fields]
  have hch : (List.range (m + 1)).filter (fun k => parentIdx elems k == some j)
      = (List.range m).filter (fun k => parentIdx elems k == some j) ++ [m] := by
    rw [List.range_succ, List.filter_append]
    have : (parentIdx elems m == some j) = true := by simp [hp]
    simp [List.filter_cons, this]
  have hdep : (if j < m + 1 then chainDepth elems j else 0)
      = (if j < m then chainDepth elems j else 0) := by
    simp [hjm, Nat.lt_succ_of_lt hjm]
  simp only [hch, hdep]

/-- Processing step `m` writes the processed node's final depth:
its parent's depth plus one. -/
theorem linkedNode_succ_self (d : Dom) (elems : List (List Nat)) (m j : Nat)
    (em : List Nat) (hp : parentIdx elems m = some j) (hjm : j < m)
    (hwp : WellParented elems) :
    { linkedNode d elems m m em with depth := chainDepth elems j + 1 }
      = linkedNode d elems (m + 1) m em := by
  rw [linkedNode_fields, linkedNode_fields]
  have hch1 : (List.range m).filter (fun k => parentIdx elems k == some m) = [] :=
    filter_parent_above elems hwp m m (by omega)
  have hch2 : (List.range (m + 1)).filter (fun k => parentIdx elems k == some m)
      = [] := filter_parent_above elems hwp (m + 1) m (by omega)
  have hdep : (if m < m + 1 then chainDepth elems m else 0)
      = chainDepth elems j + 1 := by
    rw [if_pos (Nat.lt_succ_self m), chainDepth_some elems m j hp hjm]
  simp only [hch1, hch2, hdep]

/-- State of the linking loop of `buildTree` after the first `m` nodes have
been processed: every node holds its collected element, attribute and tag;
its children are exactly the already-processed nodes whose parent search
found it, in processing order; its depth is final as soon as it has been
processed; and the root list holds the already-processed parentless nodes
in order. -/
theorem buildLoop_spec (d : Dom) (elems : List (List Nat))
    (hwp : WellParented elems) :
    ∀ m, m ≤ elems.length →
      ((List.range m).foldl linkStep (elems.map (initNode d), [])).1.length
          = elems.length ∧
      (∀ i : Nat,
        ((List.range m).foldl linkStep (elems.map (initNode d), [])).1[i]?
          = (elems[i]?).map (fun e => linkedNode d elems m i e)) ∧
      ((List.range m).foldl linkStep (elems.map (initNode d), [])).2
        = (List.range m).filter (fun k => (parentIdx elems k).isNone) := by
  intro m
  induction m with
  | zero =>
    intro _
    simp only [List.range_zero, List.foldl_nil, List.filter_nil]
    refine ⟨List.length_map _ _, ?_, trivial⟩
    intro i
    rw [List.getElem?_map]
    cases elems[i]? with
    | none => rfl
    | some e => simp [linkedNode_zero]
  | succ m ih =>
    intro hm1
    have hmn : m < elems.length := hm1
    obtain ⟨ih1, ih2, ih3⟩ := ih (Nat.le_of_lt hmn)
    set st := (List.range m).foldl linkStep (elems.map (initNode d), []) with hst
    have hfold : (List.range (m + 1)).foldl linkStep (elems.map (initNode d), [])
        = linkStep st m := by
      rw [List.range_succ, List.foldl_append, List.foldl_cons, List.foldl_nil]
    have hem : elems[m]? = some elems[m] := List.getElem?_eq_getElem hmn
    have hsm : st.1[m]? = some (linkedNode d elems m m elems[m]) := by
      rw [ih2 m, hem]
      rfl
    have hmap : st.1.map BNode.element = elems :=
      map_element_of_pointwise st.1 elems _ ih2 (fun i e => rfl)
    have hfp : findParentNode (linkedNode d elems m m elems[m]).element st.1
        = parentIdx elems m := by
      rw [linkedNode_element, findParentNode,
        findParentSearch_eq_elemSearch st.1 elems hmap, parentIdx, hem]
    cases hp : parentIdx elems m with
    | none =>
      have hstep : linkStep st m = (st.1, st.2 ++ [m]) := by
        simp only [linkStep, hsm, hfp, hp]
      rw [hfold, hstep]
      refine ⟨ih1, ?_, ?_⟩
      · intro i
        rw [ih2 i]
        cases he : elems[i]? with
        | none => rfl
        | some e =>
          simp only [Option.map_some']
          rw [linkedNode_succ_eq d elems m i e (by rw [hp]; intro hx; cases hx)
            (fun him => by rw [him]; exact chainDepth_none elems m hp)]
      · rw [ih3, List.range_succ, List.filter_append]
        have : (parentIdx elems m).isNone = true := by rw [hp]; rfl
        simp [List.filter_cons, this]
    | some j =>
      have hjm : j < m := hwp m j hp
      have hjn : j < elems.length := parentIdx_lt_length elems m j hp
      have hjne : j ≠ m := Nat.ne_of_lt hjm
      have hej : elems[j]? = some elems[j] := List.getElem?_eq_getElem hjn
      have hsj : st.1[j]? = some (linkedNode d elems m j elems[j]) := by
        rw [ih2 j, hej]
        rfl
      have hjlen : j < st.1.length := by rw [ih1]; exact hjn
      have hmlen : m < st.1.length := by rw [ih1]; exact hmn
      have hset1 : (st.1.set j { linkedNode d elems m j elems[j] with
          childIdxs := (linkedNode d elems m j elems[j]).childIdxs ++ [m] })[j]?
          = some { linkedNode d elems m j elems[j] with
              childIdxs := (linkedNode d elems m j elems[j]).childIdxs ++ [m] } :=
        List.getElem?_set_self (by simpa using hjlen)
      have hset2 : (st.1.set j { linkedNode d elems m j elems[j] with
          childIdxs := (linkedNode d elems m j elems[j]).childIdxs ++ [m] })[m]?
          = some (linkedNode d elems m m elems[m]) := by
        rw [List.getElem?_set_ne hjne]
        exact hsm
      have hstep : linkStep st m
          = ((st.1.set j { linkedNode d elems m j elems[j] with
                childIdxs := (linkedNode d elems m j elems[j]).childIdxs ++ [m] }).set m
              { linkedNode d elems m m elems[m] with
                depth := { linkedNode d elems m j elems[j] with
                    childIdxs := (linkedNode d elems m j elems[j]).childIdxs ++ [m]
                  }.depth + 1 },
            st.2) := by
        simp only [linkStep, hsm, hfp, hp, hsj, hset1, hset2]
      rw [hfold, hstep]
      refine ⟨by simp [ih1], ?_, ?_⟩
      · intro i
        by_cases him : i = m
        · rw [him]
          rw [List.getElem?_set_self (by simpa using hmlen), hem]
          have hdepth : { linkedNode d elems m j elems[j] with
              childIdxs := (linkedNode d elems m j elems[j]).childIdxs ++ [m]
            }.depth = chainDepth elems j := by
            rw [linkedNode_fields]
            simp [hjm]
          rw [hdepth]
          rw [Option.map_some']
          exact congrArg some (linkedNode_succ_self d elems m j elems[m] hp hjm hwp)
        · by_cases hij : i = j
          · rw [hij]
            rw [List.getElem?_set_ne (Ne.symm hjne), hset1, hej,
              Option.map_some']
            exact congrArg some (linkedNode_succ_parent d elems m j elems[j] hp hjm)
          · rw [List.getElem?_set_ne (fun hh => him hh.symm),
              List.getElem?_set_ne (fun hh => hij hh.symm), ih2 i]
            cases he : elems[i]? with
            | none => rfl
            | some e =>
              rw [Option.map_some', Option.map_some']
              exact congrArg some (linkedNode_succ_eq d elems m i e
                (by rw [hp]; intro hx; exact hij (by injection hx with hji; exact hji.symm))
                (fun him2 => absurd him2 him)).symm
      · rw [ih3, List.range_succ, List.filter_append]
        have : (parentIdx elems m).isNone = false := by rw [hp]; rfl
        simp [List.filter_cons, this]

/-- Final characterisation of `buildTree` (for well-parented element
lists): one node per element in order, children = the nodes whose parent
search found this node, depth = length of the parent chain, roots = the
parentless nodes in order. -/
theorem buildTree_spec (d : Dom) (elems : List (List Nat))
    (hwp : WellParented elems) :
    (buildTree d elems).nodes.length = elems.length ∧
    (∀ i : Nat, (buildTree d elems).nodes[i]?
        = (elems[i]?).map (fun e => linkedNode d elems elems.length i e)) ∧
    (buildTree d elems).rootIdxs
      = (List.range elems.length).filter (fun k => (parentIdx elems k).isNone) := by
  have h := buildLoop_spec d elems hwp elems.length (Nat.le_refl _)
  exact h

/-- The linked depth is final: `if i < n` never cuts anything for in-range
nodes, so the depth field is the parent-chain length. -/
theorem buildTree_depth (d : Dom) (elems : List (List Nat))
    (hwp : WellParented elems) (i : Nat) (hi : i < elems.length) (nd : BNode)
    (hnd : (buildTree d elems).nodes[i]? = some nd) :
    nd.depth = chainDepth elems i ∧ nd.element = elems[i] := by
  obtain ⟨h1, h2, h3⟩ := buildTree_spec d elems hwp
  rw [h2 i, List.getElem?_eq_getElem hi, Option.map_some'] at hnd
  injection hnd with hnd
  rw [← hnd, linkedNode_fields]
  exact ⟨by simp [hi], rfl⟩

theorem count_flatMap_nat (l : List Nat) (f : Nat → List Nat) (x : Nat) :
    (l.flatMap f).count x = (l.map (fun c => (f c).count x)).sum := by
  induction l with
  | nil => simp
  | cons a l ih => simp [List.flatMap_cons, List.count_append, ih]

theorem count_range_eq (n x : Nat) :
    (List.range n).count x = if x < n then 1 else 0 := by
  by_cases h : x < n
  · rw [if_pos h]
    exact List.count_eq_one_of_mem (List.nodup_range n) (List.mem_range.mpr h)
  · rw [if_neg h]
    exact List.count_eq_zero.mpr (fun hm => h (List.mem_range.mp hm))

theorem count_filter_range (n x : Nat) (p : Nat → Bool) :
    ((List.range n).filter p).count x = if p x ∧ x < n then 1 else 0 := by
  by_cases hp : p x
  · rw [List.count_filter hp, count_range_eq]
    by_cases hx : x < n <;> simp [hp, hx]
  · have hnm : x ∉ (List.range n).filter p := by
      intro hm
      exact hp ((List.mem_filter.mp hm).2)
    rw [List.count_eq_zero.mpr hnm]
    simp [hp]

theorem countP_eq_one_of_unique {α : Type} (l : List α) (p : α → Bool) (a : α)
    (hnd : l.Nodup) (hmem : a ∈ l) (hpa : p a)
    (huniq : ∀ b ∈ l, p b → b = a) : l.countP p = 1 := by
  induction l with
  | nil => cases hmem
  | cons c l ih =>
    rw [List.countP_cons]
    rcases List.mem_cons.mp hmem with rfl | hmem'
    · have hzero : l.countP p = 0 := by
        rw [List.countP_eq_zero]
        intro b hb hpb
        have hba : b = a := huniq b (List.mem_cons_of_mem a hb) hpb
        subst hba
        exact (List.nodup_cons.mp hnd).1 hb
      simp [hzero, hpa]
    · have hnc : ¬ p c = true := by
        intro hpc
        have : c = a := huniq c (List.mem_cons_self c l) hpc
        subst this
        exact (List.nodup_cons.mp hnd).1 hmem'
      rw [ih (List.nodup_cons.mp hnd).2 hmem'
        (fun b hb hpb => huniq b (List.mem_cons_of_mem c hb) hpb)]
      simp [hnc]

theorem sum_map_ite (l : List Nat) (p : Nat → Bool) :
    (l.map (fun c => if p c then 1 else 0)).sum = l.countP p := by
  induction l with
  | nil => simp
  | cons a l ih =>
    rw [List.map_cons, List.sum_cons, List.countP_cons, ih]
    by_cases hp : p a
    · simp [hp]
      omega
    · simp [hp]

theorem flatMap_singleton_eq (l : List Nat) (g : Nat → List Nat) :
    l.flatMap g = l.flatMap (fun a => [a].flatMap g) := by
  simp

theorem flattenIdxs_flatMap (nodes : List BNode) (fuel : Nat) (idxs : List Nat) :
    flattenIdxs nodes fuel idxs
      = idxs.flatMap (fun c => flattenIdxs nodes fuel [c]) := by
  cases fuel with
  | zero =>
    rw [flattenIdxs]
    induction idxs with
    | nil => simp
    | cons a idxs ih => rw [List.flatMap_cons, ← ih, flattenIdxs]; simp
  | succ fuel =>
    rw [flattenIdxs]
    have : ∀ c : Nat, flattenIdxs nodes (fuel + 1) [c]
        = c :: flattenIdxs nodes fuel (childIdxsAt nodes c) := by
      intro c
      rw [flattenIdxs]
      simp
    simp only [this]

theorem flatMap_perm_congr (l : List Nat) (f g : Nat → List Nat)
    (h : ∀ c ∈ l, List.Perm (f c) (g c)) :
    List.Perm (l.flatMap f) (l.flatMap g) := by
  induction l with
  | nil => simp
  | cons a l ih =>
    simp only [List.flatMap_cons]
    exact (h a (List.mem_cons_self a l)).append
      (ih fun c hc => h c (List.mem_cons_of_mem a hc))

theorem buildTree_childIdxsAt (d : Dom) (elems : List (List Nat))
    (hwp : WellParented elems) (i : Nat) (hi : i < elems.length) :
    childIdxsAt (buildTree d elems).nodes i
      = (List.range elems.length).filter (fun k => parentIdx elems k == some i) := by
  obtain ⟨h1, h2, h3⟩ := buildTree_spec d elems hwp
  rw [childIdxsAt, h2 i, List.getElem?_eq_getElem hi]
  simp [linkedNode_fields]

/-- The fuelled preorder walk below the node at index `i` visits exactly
the nodes whose parent chain passes through `i`, each exactly once, as
long as the fuel covers the longest possible chain. -/
theorem flatten_subtree_perm (d : Dom) (elems : List (List Nat))
    (hwp : WellParented elems) :
    ∀ fuel i, i < elems.length → elems.length - i ≤ fuel →
      List.Perm (flattenIdxs (buildTree d elems).nodes fuel [i])
        ((List.range elems.length).filter
          (fun k => decide (i ∈ ancSelf elems k))) := by
  intro fuel
  induction fuel with
  | zero =>
    intro i hi hfi
    omega
  | succ fuel ih =>
    intro i hi hfi
    have hone : flattenIdxs (buildTree d elems).nodes (fuel + 1) [i]
        = i :: flattenIdxs (buildTree d elems).nodes fuel
            (childIdxsAt (buildTree d elems).nodes i) := by
      rw [flattenIdxs]
      simp
    rw [hone, buildTree_childIdxsAt d elems hwp i hi,
      flattenIdxs_flatMap]
    have hchildmem : ∀ c ∈ (List.range elems.length).filter
        (fun k => parentIdx elems k == some i),
        c < elems.length ∧ parentIdx elems c = some i ∧ i < c := by
      intro c hc
      rcases List.mem_filter.mp hc with ⟨hcr, hcp⟩
      rw [List.mem_range] at hcr
      rw [beq_iff_eq] at hcp
      exact ⟨hcr, hcp, hwp c i hcp⟩
    have hcong : List.Perm
        (((List.range elems.length).filter
            (fun k => parentIdx elems k == some i)).flatMap
          (fun c => flattenIdxs (buildTree d elems).nodes fuel [c]))
        (((List.range elems.length).filter
            (fun k => parentIdx elems k == some i)).flatMap
          (fun c => (List.range elems.length).filter
            (fun k => decide (c ∈ ancSelf elems k)))) := by
      apply flatMap_perm_congr
      intro c hc
      rcases hchildmem c hc with ⟨hc1, _, hc3⟩
      exact ih c hc1 (by omega)
    refine List.Perm.trans (List.Perm.cons i hcong) ?_
    rw [List.perm_iff_count]
    intro x
    rw [List.count_cons, count_flatMap_nat, count_filter_range]
    have hterm : ∀ c : Nat,
        ((List.range elems.length).filter
          (fun k => decide (c ∈ ancSelf elems k))).count x
        = if decide (c ∈ ancSelf elems x) ∧ x < elems.length then 1 else 0 :=
      fun c => count_filter_range elems.length x _
    simp only [hterm]
    by_cases hxn : x < elems.length
    · have hsimp : ∀ c : Nat,
          (if decide (c ∈ ancSelf elems x) ∧ x < elems.length then 1 else 0)
            = if decide (c ∈ ancSelf elems x) then 1 else 0 := by
        intro c
        by_cases hca : decide (c ∈ ancSelf elems x) <;> simp [hca, hxn]
      simp only [hsimp, sum_map_ite]
      by_cases hxi : x = i
      · subst hxi
        have hzero : ((List.range elems.length).filter
            (fun k => parentIdx elems k == some x)).countP
              (fun c => decide (c ∈ ancSelf elems x)) = 0 := by
          rw [List.countP_eq_zero]
          intro c hc hpc
          rcases hchildmem c hc with ⟨_, _, hc3⟩
          rw [decide_eq_true_iff] at hpc
          have := mem_ancSelf_le elems x c hpc
          omega
        rw [hzero]
        simp [mem_ancSelf_self, hxn]
      · have hne1 : (i == x) = false :=
          beq_eq_false_iff_ne.mpr (fun h => hxi h.symm)
        rw [hne1]
        by_cases hmem : i ∈ ancSelf elems x
        · rcases mem_ancSelf_step elems hwp x i hmem
            (fun h => hxi h.symm) with ⟨c0, hc01, hc02⟩
          have hcount : ((List.range elems.length).filter
              (fun k => parentIdx elems k == some i)).countP
                (fun c => decide (c ∈ ancSelf elems x)) = 1 := by
            apply countP_eq_one_of_unique _ _ c0
            · exact (List.nodup_range elems.length).filter _
            · rw [List.mem_filter, List.mem_range]
              have hc0x : c0 ≤ x := mem_ancSelf_le elems x c0 hc02
              exact ⟨by omega, by simp [hc01]⟩
            · simp [hc02]
            · intro b hb hpb
              rcases hchildmem b hb with ⟨_, hbp, _⟩
              rw [decide_eq_true_iff] at hpb
              exact ancSelf_pred_unique elems hwp x i b c0 hpb hc02 hbp hc01
          rw [hcount]
          simp [hmem, hxn]
        · have hcount : ((List.range elems.length).filter
              (fun k => parentIdx elems k == some i)).countP
                (fun c => decide (c ∈ ancSelf elems x)) = 0 := by
            rw [List.countP_eq_zero]
            intro c hc hpc
            rcases hchildmem c hc with ⟨_, hcp, _⟩
            rw [decide_eq_true_iff] at hpc
            exact hmem (pred_mem_ancSelf elems hwp x i c hcp hpc)
          rw [hcount]
          simp [hmem, hxn]
    · have hzero : ∀ c : Nat,
          (if decide (c ∈ ancSelf elems x) ∧ x < elems.length then 1 else 0) = 0 := by
        intro c
        simp [hxn]
      simp only [hzero]
      have hxe : (i == x) = false := by
        have hne2 : i ≠ x := by omega
        exact beq_eq_false_iff_ne.mpr hne2
      rw [hxe]
      have : ((((List.range elems.length).filter
          (fun k => parentIdx elems k == some i))).map (fun _ : Nat => (0 : Nat))).sum
          = 0 := by
        rw [List.sum_eq_zero]
        intro y hy
        rcases List.mem_map.mp hy with ⟨z, _, hz⟩
        omega
      simp [this, hxn]

/-- The full preorder walk of the built forest visits every store index
exactly once. -/
theorem forestFlatten_perm (d : Dom) (elems : List (List Nat))
    (hwp : WellParented elems) :
    List.Perm (forestFlatten (buildTree d elems))
      (List.range elems.length) := by
  obtain ⟨h1, h2, h3⟩ := buildTree_spec d elems hwp
  rw [forestFlatten, h1, h3, flattenIdxs_flatMap]
  have hrootmem : ∀ r ∈ (List.range elems.length).filter
      (fun k => (parentIdx elems k).isNone),
      r < elems.length ∧ parentIdx elems r = none := by
    intro r hr
    rcases List.mem_filter.mp hr with ⟨hrr, hrp⟩
    rw [List.mem_range] at hrr
    refine ⟨hrr, ?_⟩
    cases hpr : parentIdx elems r with
    | none => rfl
    | some j => rw [hpr] at hrp; cases hrp
  have hcong : List.Perm
      (((List.range elems.length).filter
          (fun k => (parentIdx elems k).isNone)).flatMap
        (fun r => flattenIdxs (buildTree d elems).nodes elems.length [r]))
      (((List.range elems.length).filter
          (fun k => (parentIdx elems k).isNone)).flatMap
        (fun r => (List.range elems.length).filter
          (fun k => decide (r ∈ ancSelf elems k)))) := by
    apply flatMap_perm_congr
    intro r hr
    rcases hrootmem r hr with ⟨hr1, _⟩
    exact flatten_subtree_perm d elems hwp elems.length r hr1 (by omega)
  refine List.Perm.trans hcong ?_
  rw [List.perm_iff_count]
  intro x
  rw [count_flatMap_nat, count_range_eq]
  have hterm : ∀ r : Nat,
      ((List.range elems.length).filter
        (fun k => decide (r ∈ ancSelf elems k))).count x
      = if decide (r ∈ ancSelf elems x) ∧ x < elems.length then 1 else 0 :=
    fun r => count_filter_range elems.length x _
  simp only [hterm]
  by_cases hxn : x < elems.length
  · have hsimp : ∀ r : Nat,
        (if decide (r ∈ ancSelf elems x) ∧ x < elems.length then 1 else 0)
          = if decide (r ∈ ancSelf elems x) then 1 else 0 := by
      intro r
      by_cases hra : decide (r ∈ ancSelf elems x) <;> simp [hra, hxn]
    simp only [hsimp, sum_map_ite]
    rcases ancSelf_root_exists elems hwp x with ⟨r0, hr01, hr02⟩
    have hcount : ((List.range elems.length).filter
        (fun k => (parentIdx elems k).isNone)).countP
          (fun r => decide (r ∈ ancSelf elems x)) = 1 := by
      apply countP_eq_one_of_unique _ _ r0
      · exact (List.nodup_range elems.length).filter _
      · rw [List.mem_filter, List.mem_range]
        have : r0 ≤ x := mem_ancSelf_le elems x r0 hr01
        exact ⟨by omega, by simp [hr02]⟩
      · simp [hr01]
      · intro b hb hpb
        rcases hrootmem b hb with ⟨_, hbp⟩
        rw [decide_eq_true_iff] at hpb
        exact ancSelf_root_unique elems x b r0 hpb hr01 hbp hr02
    rw [hcount]
    simp [hxn]
  · have hzero : ∀ r : Nat,
        (if decide (r ∈ ancSelf elems x) ∧ x < elems.length then 1 else 0) = 0 := by
      intro r
      simp [hxn]
    simp only [hzero]
    have hmapz : ((((List.range elems.length).filter
        (fun k => (parentIdx elems k).isNone))).map (fun _ : Nat => (0 : Nat))).sum
        = 0 := by
      rw [List.sum_eq_zero]
      intro y hy
      rcases List.mem_map.mp hy with ⟨z, _, hz⟩
      omega
    simp [hmapz, hxn]

theorem buildTree_map_element (d : Dom) (elems : List (List Nat))
    (hwp : WellParented elems) :
    (buildTree d elems).nodes.map BNode.element = elems := by
  obtain ⟨h1, h2, h3⟩ := buildTree_spec d elems hwp
  exact map_element_of_pointwise _ elems _ h2 (fun i e => rfl)

theorem map_elemOf_range (d : Dom) (elems : List (List Nat))
    (hwp : WellParented elems) :
    (List.range elems.length).map
      (fun i => (((buildTree d elems).nodes[i]?).map BNode.element).getD [])
      = elems := by
  obtain ⟨h1, h2, h3⟩ := buildTree_spec d elems hwp
  apply List.ext_getElem?
  intro k
  rw [List.getElem?_map]
  by_cases hk : k < elems.length
  · rw [List.getElem?_range hk, Option.map_some', h2 k,
      List.getElem?_eq_getElem hk]
    simp [linkedNode_element]
  · have hr : (List.range elems.length)[k]? = none := by
      rw [List.getElem?_eq_none]
      rw [List.length_range]
      omega
    have he : elems[k]? = none := by
      rw [List.getElem?_eq_none]
      omega
    rw [hr, he]
    rfl

/-- C1: the forest returned by `buildTree` on a scan contains exactly one
`ComponentNode` per marked element: the preorder walk of the forest (roots
plus everything reachable through `children`) visits every node-store index
exactly once, the store holds one node per collected element in order, and
hence the multiset of elements referenced by the forest is exactly the
multiset of marked elements — none dropped, none duplicated. -/
theorem claim_C1_one_node_per_marked_element (d : Dom) :
    List.Perm (forestFlatten (scanForest d))
      (List.range (findElementsWithSourcePath d).length) ∧
    (scanForest d).nodes.map BNode.element = findElementsWithSourcePath d ∧
    List.Perm ((forestFlatten (scanForest d)).map
        (fun i => (((scanForest d).nodes[i]?).map BNode.element).getD []))
      (findElementsWithSourcePath d) := by
  have hwp := findElements_wellParented d
  simp only [scanForest]
  refine ⟨forestFlatten_perm d _ hwp, buildTree_map_element d _ hwp, ?_⟩
  have hperm := (forestFlatten_perm d _ hwp).map
    (fun i => (((buildTree d (findElementsWithSourcePath d)).nodes[i]?).map
      BNode.element).getD [])
  rw [map_elemOf_range d _ hwp] at hperm
  exact hperm

theorem strictAncB_iff (a b : List Nat) :
    strictAncB a b = true ↔ (a <+: b ∧ a ≠ b) := by
  rw [strictAncB, Bool.and_eq_true, List.isPrefixOf_iff_prefix, bne_iff_ne]

theorem countP_split (l : List (List Nat)) (P Q1 Q2 : List Nat → Bool)
    (hiff : ∀ x ∈ l, P x = (Q1 x || Q2 x))
    (hdis : ∀ x ∈ l, ¬(Q1 x = true ∧ Q2 x = true)) :
    l.countP P = l.countP Q1 + l.countP Q2 := by
  induction l with
  | nil => simp
  | cons a l ih =>
    rw [List.countP_cons, List.countP_cons, List.countP_cons,
      ih (fun x hx => hiff x (List.mem_cons_of_mem a hx))
        (fun x hx => hdis x (List.mem_cons_of_mem a hx))]
    have hP := hiff a (List.mem_cons_self a l)
    have hD := hdis a (List.mem_cons_self a l)
    by_cases h1 : Q1 a = true
    · by_cases h2 : Q2 a = true
      · exact absurd ⟨h1, h2⟩ hD
      · rw [h1] at hP
        simp only [Bool.true_or] at hP
        simp [hP, h1, h2]
        omega
    · by_cases h2 : Q2 a = true
      · rw [h2] at hP
        simp only [Bool.or_true] at hP
        simp [hP, h1, h2]
        omega
      · have h1f : Q1 a = false := by simp [h1]
        have h2f : Q2 a = false := by simp [h2]
        rw [h1f, h2f] at hP
        simp only [Bool.or_self] at hP
        simp [hP, h1f, h2f]

/-- The parent-chain length of a collected element equals the number of
marked elements strictly above it in the DOM. -/
theorem chainDepth_eq_count (d : Dom) :
    ∀ i e, (findElementsWithSourcePath d)[i]? = some e →
      chainDepth (findElementsWithSourcePath d) i
        = (findElementsWithSourcePath d).countP (fun q => strictAncB q e) := by
  have hwp := findElements_wellParented d
  have hnd := findElements_nodup d
  intro i
  induction i using Nat.strong_induction_on with
  | _ i ih =>
    intro e he
    cases hp : parentIdx (findElementsWithSourcePath d) i with
    | none =>
      rw [chainDepth_none _ _ hp]
      symm
      rw [List.countP_eq_zero]
      intro q hq hpq
      exact parentIdx_none_spec _ i e he hp q hq ((strictAncB_iff q e).mp hpq)
    | some j =>
      have hji : j < i := hwp i j hp
      rcases parentIdx_some_spec _ i j e he hp with
        ⟨a, hjlen, hja, ⟨hpre, hne⟩, hmax⟩
      rw [chainDepth_some _ i j hp hji, ih j hji a hja]
      have hamem : a ∈ findElementsWithSourcePath d := by
        rcases List.getElem?_eq_some.mp hja with ⟨hlt, hgm⟩
        rw [← hgm]
        exact List.getElem_mem hlt
      have hsplit : (findElementsWithSourcePath d).countP (fun q => strictAncB q e)
          = (findElementsWithSourcePath d).countP (fun q => q == a)
            + (findElementsWithSourcePath d).countP (fun q => strictAncB q a) := by
        apply countP_split
        · intro q hq
          rw [Bool.eq_iff_iff, Bool.or_eq_true, beq_iff_eq,
            strictAncB_iff, strictAncB_iff]
          constructor
          · rintro ⟨hq1, hq2⟩
            have hlen : q.length ≤ a.length := hmax q hq hq1 hq2
            have hqa : q <+: a := List.prefix_of_prefix_length_le hq1 hpre hlen
            by_cases hqea : q = a
            · exact Or.inl hqea
            · exact Or.inr ⟨hqa, hqea⟩
          · rintro (rfl | ⟨hq1, hq2⟩)
            · exact ⟨hpre, hne⟩
            · refine ⟨hq1.trans hpre, ?_⟩
              intro hqe
              have hl1 : q.length < a.length := by
                rcases Nat.lt_or_ge q.length a.length with h | h
                · exact h
                · exact absurd (hq1.eq_of_length_le h) hq2
              have hl2 : a.length ≤ e.length := hpre.length_le
              have := congrArg List.length hqe
              omega
        · intro q hq
          rintro ⟨hq1, hq2⟩
          rw [beq_iff_eq] at hq1
          rcases (strictAncB_iff q a).mp hq2 with ⟨_, hq4⟩
          exact hq4 hq1
      have hone : (findElementsWithSourcePath d).countP (fun q => q == a) = 1 := by
        apply countP_eq_one_of_unique _ _ a hnd hamem (by simp)
        intro b hb hpb
        rwa [beq_iff_eq] at hpb
      rw [hsplit, hone]
      omega

/-- C2: for every `ComponentNode` of a scanned forest, `depth` equals the
number of marked elements that are strict DOM ancestors of its element;
in particular every root has depth 0.  (The proof goes through the
document order of the collected list: each parent's depth is final before
any of its children are processed.) -/
theorem claim_C2_depth_counts_marked_ancestors (d : Dom) (i : Nat) (nd : BNode)
    (hnd : (scanForest d).nodes[i]? = some nd) :
    nd.depth = markedAncestorCount d nd.element ∧
    (i ∈ (scanForest d).rootIdxs → nd.depth = 0) := by
  have hwp := findElements_wellParented d
  obtain ⟨h1, h2, h3⟩ := buildTree_spec d (findElementsWithSourcePath d) hwp
  have hnd' : (buildTree d (findElementsWithSourcePath d)).nodes[i]? = some nd := hnd
  have hin : i < (findElementsWithSourcePath d).length := by
    rcases List.getElem?_eq_some.mp hnd' with ⟨hlt, _⟩
    rw [h1] at hlt
    exact hlt
  obtain ⟨hdep, helem⟩ := buildTree_depth d _ hwp i hin nd hnd'
  have hee : (findElementsWithSourcePath d)[i]?
      = some ((findElementsWithSourcePath d)[i]) := List.getElem?_eq_getElem hin
  constructor
  · rw [hdep, helem, markedAncestorCount]
    exact chainDepth_eq_count d i _ hee
  · intro hroot
    have hroot' : i ∈ (buildTree d (findElementsWithSourcePath d)).rootIdxs := hroot
    rw [h3] at hroot'
    rcases List.mem_filter.mp hroot' with ⟨_, hisn⟩
    cases hpi : parentIdx (findElementsWithSourcePath d) i with
    | some j =>
      rw [hpi] at hisn
      simp at hisn
    | none => rw [hdep, chainDepth_none _ _ hpi]

/-- Witness for C2 at node "C" of the demo document (depth 2: marked
ancestors "A" and "B", with the unmarked `<i>` skipped). -/
theorem claim_C2_witness :
    (scanForest demoDom).nodes[2]? = some ⟨[0, 0, 0, 0], "C", "b", [], 2⟩ ∧
    ((⟨[0, 0, 0, 0], "C", "b", [], 2⟩ : BNode).depth =
        markedAncestorCount demoDom (⟨[0, 0, 0, 0], "C", "b", [], 2⟩ : BNode).element ∧
      (2 ∈ (scanForest demoDom).rootIdxs →
        (⟨[0, 0, 0, 0], "C", "b", [], 2⟩ : BNode).depth = 0)) :=
  ⟨rfl, claim_C2_depth_counts_marked_ancestors demoDom 2
    ⟨[0, 0, 0, 0], "C", "b", [], 2⟩ rfl⟩

theorem nodup_getElem?_inj {α : Type} (l : List α) (hnd : l.Nodup) (i j : Nat)
    (x : α) (hi : l[i]? = some x) (hj : l[j]? = some x) : i = j := by
  rcases List.getElem?_eq_some.mp hi with ⟨hi1, hi2⟩
  rcases List.getElem?_eq_some.mp hj with ⟨hj1, hj2⟩
  exact (hnd.getElem_inj_iff).mp (by rw [hi2, hj2])

/-- C3: in a scanned forest, node `i` is a child of node `j` exactly when
`j`'s element is the nearest marked strict DOM ancestor of `i`'s element
(every other marked strict ancestor lies above it), and `i` is a root
exactly when no marked element is a strict ancestor of its element. -/
theorem claim_C3_parent_is_nearest_marked_ancestor (d : Dom) (i : Nat)
    (nd : BNode) (hnd : (scanForest d).nodes[i]? = some nd) :
    (∀ (j : Nat) (pj : BNode), (scanForest d).nodes[j]? = some pj →
      (i ∈ pj.childIdxs ↔
        (pj.element <+: nd.element ∧ pj.element ≠ nd.element ∧
          ∀ q ∈ findElementsWithSourcePath d,
            q <+: nd.element → q ≠ nd.element → q <+: pj.element))) ∧
    (i ∈ (scanForest d).rootIdxs ↔
      ∀ q ∈ findElementsWithSourcePath d,
        ¬(q <+: nd.element ∧ q ≠ nd.element)) := by
  have hwp := findElements_wellParented d
  have hnodup := findElements_nodup d
  obtain ⟨h1, h2, h3⟩ := buildTree_spec d (findElementsWithSourcePath d) hwp
  have hnd' : (buildTree d (findElementsWithSourcePath d)).nodes[i]? = some nd := hnd
  have hin : i < (findElementsWithSourcePath d).length := by
    rcases List.getElem?_eq_some.mp hnd' with ⟨hlt, _⟩
    rw [h1] at hlt
    exact hlt
  obtain ⟨_, helem⟩ := buildTree_depth d _ hwp i hin nd hnd'
  have hee : (findElementsWithSourcePath d)[i]?
      = some ((findElementsWithSourcePath d)[i]) := List.getElem?_eq_getElem hin
  constructor
  · intro j pj hpj
    have hpj' : (buildTree d (findElementsWithSourcePath d)).nodes[j]? = some pj :=
      hpj
    have hjn : j < (findElementsWithSourcePath d).length := by
      rcases List.getElem?_eq_some.mp hpj' with ⟨hlt, _⟩
      rw [h1] at hlt
      exact hlt
    obtain ⟨_, hpjel⟩ := buildTree_depth d _ hwp j hjn pj hpj'
    have hje : (findElementsWithSourcePath d)[j]?
        = some ((findElementsWithSourcePath d)[j]) := List.getElem?_eq_getElem hjn
    have hch : pj.childIdxs = (List.range (findElementsWithSourcePath d).length).filter
        (fun k => parentIdx (findElementsWithSourcePath d) k == some j) := by
      rw [h2 j, hje, Option.map_some'] at hpj'
      injection hpj' with hpj2
      rw [← hpj2, linkedNode_fields]
    have hmemch : i ∈ pj.childIdxs
        ↔ parentIdx (findElementsWithSourcePath d) i = some j := by
      rw [hch, List.mem_filter, List.mem_range, beq_iff_eq]
      constructor
      · rintro ⟨_, hp⟩
        exact hp
      · intro hp
        exact ⟨hin, hp⟩
    rw [hmemch, helem, hpjel]
    constructor
    · intro hp
      rcases parentIdx_some_spec _ i j _ hee hp with ⟨a, _, hja, ⟨hpre, hne⟩, hmax⟩
      have haj : (findElementsWithSourcePath d)[j] = a := by
        rw [hje] at hja
        injection hja
      rw [haj]
      refine ⟨hpre, hne, ?_⟩
      intro q hq hq1 hq2
      exact List.prefix_of_prefix_length_le hq1 hpre (hmax q hq hq1 hq2)
    · rintro ⟨hpre, hne, hnear⟩
      cases hp : parentIdx (findElementsWithSourcePath d) i with
      | none =>
        have hjmem : (findElementsWithSourcePath d)[j]
            ∈ findElementsWithSourcePath d := List.getElem_mem hjn
        exact absurd ⟨hpre, hne⟩
          (parentIdx_none_spec _ i _ hee hp _ hjmem)
      | some j2 =>
        rcases parentIdx_some_spec _ i j2 _ hee hp with
          ⟨a, _, hja2, ⟨hpre2, hne2⟩, hmax2⟩
        have hamem : a ∈ findElementsWithSourcePath d := by
          rcases List.getElem?_eq_some.mp hja2 with ⟨hlt, hgm⟩
          rw [← hgm]
          exact List.getElem_mem hlt
        have hjmem : (findElementsWithSourcePath d)[j]
            ∈ findElementsWithSourcePath d := List.getElem_mem hjn
        have hd1 : a <+: (findElementsWithSourcePath d)[j] :=
          hnear a hamem hpre2 hne2
        have hd2 : (findElementsWithSourcePath d)[j] <+: a :=
          List.prefix_of_prefix_length_le hpre hpre2
            (hmax2 _ hjmem hpre hne)
        have heq : a = (findElementsWithSourcePath d)[j] :=
          hd1.eq_of_length (Nat.le_antisymm hd1.length_le hd2.length_le)
        have : j2 = j := by
          apply nodup_getElem?_inj _ hnodup j2 j a hja2
          rw [hje, heq]
        rw [this]
  · have hroot : i ∈ (buildTree d (findElementsWithSourcePath d)).rootIdxs
        ↔ parentIdx (findElementsWithSourcePath d) i = none := by
      rw [h3, List.mem_filter, List.mem_range]
      constructor
      · rintro ⟨_, hp⟩
        cases hpx : parentIdx (findElementsWithSourcePath d) i with
        | none => rfl
        | some j =>
          rw [hpx] at hp
          simp at hp
      · intro hp
        exact ⟨hin, by rw [hp]; rfl⟩
    rw [helem]
    constructor
    · intro hmem
      exact parentIdx_none_spec _ i _ hee (hroot.mp hmem)
    · intro hnone
      apply hroot.mpr
      cases hp : parentIdx (findElementsWithSourcePath d) i with
      | none => rfl
      | some j =>
        rcases parentIdx_some_spec _ i j _ hee hp with
          ⟨a, _, hja, ⟨hpre, hne⟩, _⟩
        have hamem : a ∈ findElementsWithSourcePath d := by
          rcases List.getElem?_eq_some.mp hja with ⟨hlt, hgm⟩
          rw [← hgm]
          exact List.getElem_mem hlt
        exact absurd ⟨hpre, hne⟩ (hnone a hamem)

/-- Witness for C3 at node "C" of the demo document: its tree parent is
"B" (the nearest marked ancestor, past the unmarked `<i>`), and it is not
a root. -/
theorem claim_C3_witness :
    (scanForest demoDom).nodes[2]? = some ⟨[0, 0, 0, 0], "C", "b", [], 2⟩ ∧
    ((∀ (j : Nat) (pj : BNode), (scanForest demoDom).nodes[j]? = some pj →
      (2 ∈ pj.childIdxs ↔
        (pj.element <+: (⟨[0, 0, 0, 0], "C", "b", [], 2⟩ : BNode).element ∧
          pj.element ≠ (⟨[0, 0, 0, 0], "C", "b", [], 2⟩ : BNode).element ∧
          ∀ q ∈ findElementsWithSourcePath demoDom,
            q <+: (⟨[0, 0, 0, 0], "C", "b", [], 2⟩ : BNode).element →
            q ≠ (⟨[0, 0, 0, 0], "C", "b", [], 2⟩ : BNode).element →
            q <+: pj.element))) ∧
    (2 ∈ (scanForest demoDom).rootIdxs ↔
      ∀ q ∈ findElementsWithSourcePath demoDom,
        ¬(q <+: (⟨[0, 0, 0, 0], "C", "b", [], 2⟩ : BNode).element ∧
          q ≠ (⟨[0, 0, 0, 0], "C", "b", [], 2⟩ : BNode).element))) :=
  ⟨rfl, claim_C3_parent_is_nearest_marked_ancestor demoDom 2
    ⟨[0, 0, 0, 0], "C", "b", [], 2⟩ rfl⟩

/-- `renderTreeNode` emits exactly one line per preorder-visited node:
rendering is the line map over the preorder walk. -/
theorem renderTreeLines_eq_map (sel : Option Nat) (nodes : List BNode)
    (ids : List Nat) :
    ∀ fuel idxs, renderTreeLines sel nodes ids fuel idxs
      = (flattenIdxs nodes fuel idxs).map (renderNodeLine sel nodes ids) := by
  intro fuel
  induction fuel with
  | zero =>
    intro idxs
    rw [renderTreeLines, flattenIdxs]
    rfl
  | succ fuel ih =>
    intro idxs
    rw [renderTreeLines, flattenIdxs, List.map_flatMap]
    simp only [List.map_cons, ih]

theorem range'_getD (s n i : Nat) (hi : i < n) :
    (List.range' s n).getD i 0 = s + i := by
  have h := List.getElem?_range' s 1 hi
  rw [List.getD, List.get?_eq_getElem?, h]
  simp

/-- C6: after a rescan nothing is selected.  Every node of the new forest
has a fresh allocation id different from the id held by `selectedNode`,
so the reference-identity test of `renderTreeNode` is false on every
rendered line, even if a node with the same source path exists in the new
forest. -/
theorem claim_C6_rescan_invalidates_selection (st : PanelState) (nd : BNode)
    (id : Nat) (hsel : st.selectedNode = some (nd, id))
    (hid : id < st.nextId) :
    (∀ k ∈ (scanComponentTree st).componentTree.ids, id ≠ k) ∧
    (∀ line ∈ renderTree (scanComponentTree st), line.selected = false) := by
  have hwp := findElements_wellParented st.dom
  obtain ⟨h1, h2, h3⟩ := buildTree_spec st.dom (findElementsWithSourcePath st.dom) hwp
  constructor
  · intro k hk
    have : k ∈ List.range' st.nextId (scanForest st.dom).nodes.length := hk
    rw [List.mem_range'_1] at this
    omega
  · intro line hline
    have hsel' : (scanComponentTree st).selectedNode = some (nd, id) := hsel
    have hrt : renderTree (scanComponentTree st)
        = (forestFlatten (scanForest st.dom)).map
          (renderNodeLine (some id) (scanForest st.dom).nodes
            (List.range' st.nextId (scanForest st.dom).nodes.length)) := by
      rw [renderTree, hsel']
      exact renderTreeLines_eq_map _ _ _ _ _
    rw [hrt] at hline
    rcases List.mem_map.mp hline with ⟨i, hiflat, hlineq⟩
    have hiran : i ∈ List.range (findElementsWithSourcePath st.dom).length :=
      (forestFlatten_perm st.dom _ hwp).mem_iff.mp hiflat
    rw [List.mem_range] at hiran
    have hilen : i < (scanForest st.dom).nodes.length := by
      have : (scanForest st.dom).nodes.length
          = (findElementsWithSourcePath st.dom).length := h1
      omega
    have hnode : (scanForest st.dom).nodes[i]?
        = some ((scanForest st.dom).nodes[i]) := List.getElem?_eq_getElem hilen
    rw [← hlineq, renderNodeLine, hnode]
    have hgetd : (List.range' st.nextId (scanForest st.dom).nodes.length).getD i 0
        = st.nextId + i := range'_getD _ _ i hilen
    rw [hgetd]
    have hne : (some id == some (st.nextId + i)) = false := by
      rw [beq_eq_false_iff_ne]
      intro hcontra
      injection hcontra with hcontra
      omega
    simp [hne]

/-- Witness for C6: select root "A" of the scanned demo panel, then
rescan. -/
theorem claim_C6_witness :
    (selectNode (scanComponentTree demoPanel) ⟨[0], "A", "div", [1], 0⟩ 0).selectedNode
        = some (⟨[0], "A", "div", [1], 0⟩, 0) ∧
    0 < (selectNode (scanComponentTree demoPanel) ⟨[0], "A", "div", [1], 0⟩ 0).nextId ∧
    ((∀ k ∈ (scanComponentTree (selectNode (scanComponentTree demoPanel)
        ⟨[0], "A", "div", [1], 0⟩ 0)).componentTree.ids, 0 ≠ k) ∧
      (∀ line ∈ renderTree (scanComponentTree (selectNode (scanComponentTree demoPanel)
        ⟨[0], "A", "div", [1], 0⟩ 0)), line.selected = false)) :=
  ⟨rfl, by decide,
    claim_C6_rescan_invalidates_selection
      (selectNode (scanComponentTree demoPanel) ⟨[0], "A", "div", [1], 0⟩ 0)
      ⟨[0], "A", "div", [1], 0⟩ 0 rfl (by decide)⟩

/-- C7: the rendered tree is the preorder listing of the forest — each
node's line immediately followed by its children's blocks, children (and
roots) in original document order, i.e. ascending store index — and each
node's line shows its tag name and source path with indent text equal to
the fixed two-space unit repeated exactly `depth` times (a function of the
depth alone). -/
theorem claim_C7_render_lines_indent_depth (st : PanelState)
    (hfor : st.componentTree.forest = scanForest st.dom) :
    renderTree st = (forestFlatten st.componentTree.forest).map
      (renderNodeLine (st.selectedNode.map Prod.snd)
        st.componentTree.forest.nodes st.componentTree.ids) ∧
    (∀ (i : Nat) (nd : BNode), st.componentTree.forest.nodes[i]? = some nd →
      renderNodeLine (st.selectedNode.map Prod.snd)
          st.componentTree.forest.nodes st.componentTree.ids i
        = { indent := strRepeat "  " nd.depth
            tagName := nd.tagName
            sourcePath := nd.sourcePath
            selected := st.selectedNode.map Prod.snd
              == some (st.componentTree.ids.getD i 0) }) ∧
    (∀ (i : Nat) (nd : BNode), st.componentTree.forest.nodes[i]? = some nd →
      List.Pairwise (· < ·) nd.childIdxs) ∧
    List.Pairwise (· < ·) st.componentTree.forest.rootIdxs := by
  have hwp := findElements_wellParented st.dom
  obtain ⟨h1, h2, h3⟩ := buildTree_spec st.dom (findElementsWithSourcePath st.dom) hwp
  refine ⟨?_, ?_, ?_, ?_⟩
  · rw [renderTree, forestFlatten]
    exact renderTreeLines_eq_map _ _ _ _ _
  · intro i nd hnd
    rw [renderNodeLine, hnd]
  · intro i nd hnd
    rw [hfor] at hnd
    have hnd' : (buildTree st.dom (findElementsWithSourcePath st.dom)).nodes[i]?
        = some nd := hnd
    have hin : i < (findElementsWithSourcePath st.dom).length := by
      rcases List.getElem?_eq_some.mp hnd' with ⟨hlt, _⟩
      rw [h1] at hlt
      exact hlt
    have hch : nd.childIdxs
        = (List.range (findElementsWithSourcePath st.dom).length).filter
          (fun k => parentIdx (findElementsWithSourcePath st.dom) k == some i) := by
      rw [h2 i, List.getElem?_eq_getElem hin, Option.map_some'] at hnd'
      injection hnd' with hnd2
      rw [← hnd2, linkedNode_fields]
    rw [hch]
    exact (List.pairwise_lt_range _).filter _
  · rw [hfor]
    have hsf : (scanForest st.dom).rootIdxs
        = (List.range (findElementsWithSourcePath st.dom).length).filter
          (fun k => (parentIdx (findElementsWithSourcePath st.dom) k).isNone) := h3
    rw [hsf]
    exact (List.pairwise_lt_range _).filter _

/-- Witness for C7 at the freshly scanned demo panel. -/
theorem claim_C7_witness :
    (scanComponentTree demoPanel).componentTree.forest
        = scanForest (scanComponentTree demoPanel).dom ∧
    (renderTree (scanComponentTree demoPanel)
        = (forestFlatten (scanComponentTree demoPanel).componentTree.forest).map
          (renderNodeLine ((scanComponentTree demoPanel).selectedNode.map Prod.snd)
            (scanComponentTree demoPanel).componentTree.forest.nodes
            (scanComponentTree demoPanel).componentTree.ids) ∧
      (∀ (i : Nat) (nd : BNode),
        (scanComponentTree demoPanel).componentTree.forest.nodes[i]? = some nd →
        renderNodeLine ((scanComponentTree demoPanel).selectedNode.map Prod.snd)
            (scanComponentTree demoPanel).componentTree.forest.nodes
            (scanComponentTree demoPanel).componentTree.ids i
          = { indent := strRepeat "  " nd.depth
              tagName := nd.tagName
              sourcePath := nd.sourcePath
              selected := (scanComponentTree demoPanel).selectedNode.map Prod.snd
                == some ((scanComponentTree demoPanel).componentTree.ids.getD i 0) }) ∧
      (∀ (i : Nat) (nd : BNode),
        (scanComponentTree demoPanel).componentTree.forest.nodes[i]? = some nd →
        List.Pairwise (· < ·) nd.childIdxs) ∧
      List.Pairwise (· < ·)
        (scanComponentTree demoPanel).componentTree.forest.rootIdxs) :=
  ⟨rfl, claim_C7_render_lines_indent_depth (scanComponentTree demoPanel) rfl⟩
